import Mathlib

/-!
# Verification of the n-puzzle bidirectional A* solver

Shallow embedding of the puzzle solver (`n-puzzle.ipynb`): puzzle states are
row-major flattened lists of naturals (the byte-string keys of the source are
lists of cell values; for the board sizes the program uses, every cell value
fits in one byte, so lexicographic comparison of the byte strings agrees with
lexicographic comparison of the value lists).  The global `PUZZLE_DIM` of the
source becomes an explicit parameter `n`.  Dictionaries become association
lists with most-recent-first lookup, sets become lists with membership, and
the `heapq` frontier becomes a list from which `heapPop` removes the least
entry under the (priority, key) lexicographic order — exactly the element
`heappop` returns, since that order is total on distinct entries.
-/

namespace NPuzzle

/-- A puzzle state in row-major flattened form; also the dictionary key
(the source keys its maps by `state.tobytes()`). -/
abbrev Key := List Nat

/-- `Action = namedtuple('Action', ['pos1', 'pos2'])`: a swap between two
board coordinates. -/
structure Action where
  pos1 : Nat × Nat
  pos2 : Nat × Nat
deriving DecidableEq, Repr

/-- `available_actions(state)`: locate the blank (first `0`, as
`np.argwhere(state == 0)[0]` in row-major order) and emit the in-bounds
swaps in the fixed order up, down, left, right. -/
def available_actions (n : Nat) (state : Key) : List Action :=
  let idx := state.indexOf 0
  let x := idx / n
  let y := idx % n
  (if x > 0 then [Action.mk (x, y) (x - 1, y)] else []) ++
  (if x < n - 1 then [Action.mk (x, y) (x + 1, y)] else []) ++
  (if y > 0 then [Action.mk (x, y) (x, y - 1)] else []) ++
  (if y < n - 1 then [Action.mk (x, y) (x, y + 1)] else [])

/-- `do_action(state, action)`: copy the state and exchange the contents of
the two coordinates (row-major index `x*n + y`). -/
def do_action (n : Nat) (state : Key) (action : Action) : Key :=
  (state.set (action.pos1.1 * n + action.pos1.2)
      (state.getD (action.pos2.1 * n + action.pos2.2) 0)).set
    (action.pos2.1 * n + action.pos2.2)
    (state.getD (action.pos1.1 * n + action.pos1.2) 0)

/-- `manhattan_distance(state)`: sum over non-blank cells of the distance to
the cell's position in the standard goal, `divmod(value - 1, n)`.  Note the
source heuristic takes no target argument: it always measures to the
standard goal. -/
def manhattan_distance (n : Nat) (state : Key) : Nat :=
  ((List.range n).map (fun x =>
    ((List.range n).map (fun y =>
      if state.getD (x * n + y) 0 = 0 then 0
      else ((x : Int) - ((state.getD (x * n + y) 0 - 1) / n : Nat)).natAbs +
           ((y : Int) - ((state.getD (x * n + y) 0 - 1) % n : Nat)).natAbs)).sum)).sum

/-- Modelled from the spec: the two-argument Manhattan-distance estimator
`manhattanDistance(state, target)` the spec describes (distance from each
non-blank value's position in `state` to its position in `target`); the
source has no such function, so this definition follows the spec's words and
exists only to be compared with the source's one-argument
`manhattan_distance`. -/
def manhattan_distance_to (n : Nat) (state target : Key) : Nat :=
  ((List.range n).map (fun x =>
    ((List.range n).map (fun y =>
      if state.getD (x * n + y) 0 = 0 then 0
      else ((x : Int) - (target.indexOf (state.getD (x * n + y) 0) / n : Nat)).natAbs +
           ((y : Int) - (target.indexOf (state.getD (x * n + y) 0) % n : Nat)).natAbs)).sum)).sum

/-- The blank's flattened index, as `available_actions` computes it. -/
def blankIdx (s : Key) : Nat := s.indexOf 0

/-- Inversion count of the flattened state: pairs `i < j` with both values
non-blank and `flat[i] > flat[j]` (the double loop of `is_solvable`). -/
def inversions : Key → Nat
  | [] => 0
  | v :: rest =>
      rest.countP (fun w => v != 0 && w != 0 && decide (w < v)) + inversions rest

/-- `is_solvable(state)`: the source tests only that the inversion count of
the flattened state is even, for every board dimension. -/
def is_solvable (state : Key) : Bool :=
  inversions state % 2 == 0

/-- The goal state `[1, …, n²-1, 0]`
(`np.array([i for i in range(1, PUZZLE_DIM**2)] + [0])`). -/
def goal_state (n : Nat) : Key :=
  (List.range (n * n - 1)).map (fun i => i + 1) ++ [0]

/-! ## The frontier: `heapq` on `(f_score, state_bytes)` pairs -/

/-- Lexicographic strict order on keys — byte-string comparison of the
source's `tobytes()` keys (cell values fit in one byte at the program's
board sizes, and all keys in one search have equal length). -/
def keyLT : Key → Key → Bool
  | _, [] => false
  | [], _ :: _ => true
  | a :: as, b :: bs => a < b || (a == b && keyLT as bs)

/-- Python tuple comparison `(f1, k1) <= (f2, k2)` on frontier entries. -/
def entryLE (a b : Nat × Key) : Bool :=
  a.1 < b.1 || (a.1 == b.1 && (keyLT a.2 b.2 || a.2 == b.2))

/-- `heappop`: remove and return the least entry under `entryLE`.  The order
is total and distinct states have distinct keys, so the least entry is
determined by the entry multiset alone, matching `heapq` exactly. -/
def heapPop (l : List (Nat × Key)) : Option ((Nat × Key) × List (Nat × Key)) :=
  match l with
  | [] => none
  | e :: es =>
      let m := es.foldl (fun a b => if entryLE a b then a else b) e
      some (m, l.erase m)

/-- Dictionary lookup in an association list grown by consing (the newest
binding wins, modelling dictionary overwrite). -/
def dictGet {α : Type} (m : List (Key × α)) (k : Key) : Option α :=
  (m.find? (fun p => p.1 == k)).map Prod.snd

/-- Python's `came_from.get(node)`: `None` both when the key is absent and
when the stored value is `None`. -/
def cameGet (m : List (Key × Option Key)) (k : Key) : Option Key :=
  (dictGet m k).getD none

/-! ## One directional search -/

/-- The per-direction bookkeeping: frontier (`open_set`), predecessor map
(`came_from`), cost map (`g_score`), and explored set. -/
structure Dir where
  openq : List (Nat × Key)
  came : List (Key × Option Key)
  g : List (Key × Nat)
  expl : List Key
deriving Repr

/-- `a_star_search(initial_state, goal_state, forward)`: seed a direction
with the root pushed at priority `manhattan_distance(root)`, `came_from =
{root: None}` and `g_score = {root: 0}`.  As in the source, the
`goal_state` and `forward` arguments are unused. -/
def a_star_search (n : Nat) (initial_state target : Key) (forward : Bool) : Dir :=
  { openq := [(manhattan_distance n initial_state, initial_state)]
    came := [(initial_state, none)]
    g := [(initial_state, 0)]
    expl := [] }

/-- The relaxation loop `for action in available_actions(current)` of either
direction: each neighbor with a fresh or strictly improved tentative gScore
is recorded in `g` and `came`, pushed at priority
`tentative_g + manhattan_distance(neighbor)`, and counted in
`nodes_evaluated`. -/
def relaxStep (n : Nat) (current : Key) (dn : Dir × Nat) (action : Action) : Dir × Nat :=
  let d := dn.1
  let nodes := dn.2
  let neighbor := do_action n current action
  let tg := (dictGet d.g current).getD 0 + 1
  let better :=
    match dictGet d.g neighbor with
    | none => true
    | some old => decide (tg < old)
  if better then
    ({ d with
        g := (neighbor, tg) :: d.g
        openq := d.openq ++ [(tg + manhattan_distance n neighbor, neighbor)]
        came := (neighbor, some current) :: d.came },
     nodes + 1)
  else (d, nodes)

def relaxAll (n : Nat) (current : Key) (d : Dir) (nodes : Nat) : Dir × Nat :=
  (available_actions n current).foldl (relaxStep n current) (d, nodes)

/-- One direction's block of the main loop: pop the least frontier entry,
mark it explored, declare it the meeting state if the other direction has
explored it, and otherwise relax all its neighbors. -/
def stepDir (n : Nat) (d other : Dir) (nodes : Nat) : Option Key × Dir × Nat :=
  match heapPop d.openq with
  | none => (none, d, nodes)
  | some ((_, current), rest) =>
      let d := { d with openq := rest, expl := current :: d.expl }
      if current ∈ other.expl then (some current, d, nodes)
      else
        let dn := relaxAll n current d nodes
        (none, dn.1, dn.2)

/-- The whole engine state: the two directions plus `nodes_evaluated`. -/
structure BidirState where
  fwd : Dir
  bwd : Dir
  nodes : Nat
deriving Repr

/-- One iteration of `while open_forward and open_backward`: either the loop
exits (guard false, or a meeting state found in one of the two blocks), or
the next engine state is produced. -/
def iterOnce (n : Nat) (st : BidirState) : (Option Key × BidirState) ⊕ BidirState :=
  if st.fwd.openq = [] ∨ st.bwd.openq = [] then Sum.inl (none, st)
  else
    match stepDir n st.fwd st.bwd st.nodes with
    | (some m, d, nodes) => Sum.inl (some m, { st with fwd := d, nodes := nodes })
    | (none, d, nodes) =>
        let st := { st with fwd := d, nodes := nodes }
        match stepDir n st.bwd st.fwd st.nodes with
        | (some m, d, nodes) => Sum.inl (some m, { st with bwd := d, nodes := nodes })
        | (none, d, nodes) => Sum.inr { st with bwd := d, nodes := nodes }

/-- The main loop, fuel-indexed: `none` means the fuel ran out, `some`
is the loop's own exit (with the meeting state, if any). -/
def loop (n : Nat) : Nat → BidirState → Option (Option Key × BidirState)
  | 0, _ => none
  | fuel + 1, st =>
      match iterOnce n st with
      | Sum.inl r => some r
      | Sum.inr st' => loop n fuel st'

/-- `while node is not None: path.append(node); node = came_from.get(node)`,
fuel-indexed. -/
def walkChain (came : List (Key × Option Key)) : Nat → Option Key → List Key
  | 0, _ => []
  | _, none => []
  | fuel + 1, some k => k :: walkChain came fuel (cameGet came k)

/-- Path reconstruction: walk the forward predecessor chain from the meeting
state, reverse it, and append the backward chain starting at the meeting
state's backward predecessor.  The walk fuel `length + 1` covers any chain
the maps can hold. -/
def reconstructPath (st : BidirState) (meeting : Key) : List Key :=
  let pf := walkChain st.fwd.came (st.fwd.came.length + 1) (some meeting)
  let pb := walkChain st.bwd.came (st.bwd.came.length + 1) (cameGet st.bwd.came meeting)
  pf.reverse ++ pb

/-- The engine state after `a_star_search` seeds both directions. -/
def initState (n : Nat) (initial_state : Key) : BidirState :=
  { fwd := a_star_search n initial_state (goal_state n) true
    bwd := a_star_search n (goal_state n) initial_state false
    nodes := 0 }

/-- `bidirectional_a_star(initial_state)`: run the alternating loop; on
normal exit return `(None, nodes_evaluated)` without a meeting state and
`(full_path, nodes_evaluated)` with one.  The outer `none` is fuel
exhaustion, an artifact of the embedding. -/
def bidirectional_a_star (n : Nat) (initial_state : Key) (fuel : Nat) :
    Option (Option (List Key) × Nat) :=
  match loop n fuel (initState n initial_state) with
  | none => none
  | some (none, st) => some (none, st.nodes)
  | some (some meeting, st) => some (some (reconstructPath st meeting), st.nodes)

/-! ## Verification infrastructure

Definitions used only to state and prove properties of the embedding. -/

/-- Number of distinct keys of an association list. -/
def domCard {α : Type} (m : List (Key × α)) : Nat := (m.map Prod.fst).toFinset.card

/-- The per-direction search invariant: the root is seeded with gScore 0 and
no predecessor; every recorded state is a permutation of the cell values;
every frontier entry and every explored state has a gScore; gScore and
predecessor maps share their domain; every non-root recorded state has a
predecessor with strictly smaller gScore, one legal move away; only the
root's predecessor is `none`; and gScores stay below the number of
recorded states. -/
structure DirInv (n : Nat) (root : Key) (d : Dir) : Prop where
  g_root : dictGet d.g root = some 0
  came_root : dictGet d.came root = some none
  keys_perm : ∀ k v, dictGet d.g k = some v → k.Perm (List.range (n * n))
  openq_g : ∀ e ∈ d.openq, (dictGet d.g e.2).isSome
  expl_g : ∀ k ∈ d.expl, (dictGet d.g k).isSome
  dom_eq : ∀ k, (dictGet d.g k).isSome ↔ (dictGet d.came k).isSome
  chain : ∀ k v, dictGet d.g k = some v → k ≠ root →
    ∃ p w x, dictGet d.came k = some (some p) ∧ dictGet d.g p = some w ∧
      w < v ∧ x ∈ available_actions n p ∧ k = do_action n p x
  came_none : ∀ k, dictGet d.came k = some none → k = root
  g_bound : ∀ k v, dictGet d.g k = some v → v + 1 ≤ domCard d.g

/-- The whole-engine invariant: each direction satisfies its own invariant,
rooted at the start and goal states respectively. -/
def BidirInv (n : Nat) (start : Key) (st : BidirState) : Prop :=
  DirInv n start st.fwd ∧ DirInv n (goal_state n) st.bwd

/-- Reachability between engine states by whole loop iterations. -/
def Reaches (n : Nat) (st st' : BidirState) : Prop :=
  Relation.ReflTransGen (fun a b => iterOnce n a = Sum.inr b) st st'

/-- The finite key space: all permutations of the cell values. -/
def KS (n : Nat) : Finset Key := ((List.range (n * n)).permutations).toFinset

/-- The gScore of a key, read as `card (KS n) + 1` when absent. -/
def gval (n : Nat) (m : List (Key × Nat)) (k : Key) : Nat :=
  (dictGet m k).getD ((KS n).card + 1)

/-- Termination measure of one direction: total recorded gScore mass over
the key space plus the frontier size.  A pop decreases it by one and a
relaxation never increases it. -/
def measureDir (n : Nat) (d : Dir) : Nat :=
  (KS n).sum (fun k => gval n d.g k) + d.openq.length

/-- Termination measure of the whole engine state. -/
def measureSt (n : Nat) (st : BidirState) : Nat :=
  measureDir n st.fwd + measureDir n st.bwd

/-- The goal's neighbour obtained by moving the tile above the blank down. -/
def gnbU (n : Nat) : Key :=
  do_action n (goal_state n) (Action.mk (n - 1, n - 1) (n - 1 - 1, n - 1))

/-- The goal's neighbour obtained by moving the tile left of the blank right. -/
def gnbL (n : Nat) : Key :=
  do_action n (goal_state n) (Action.mk (n - 1, n - 1) (n - 1, n - 1 - 1))

/-- A goal-rooted direction right after popping and exploring the goal. -/
def goalPopped (n : Nat) : Dir :=
  { openq := [], came := [(goal_state n, none)], g := [(goal_state n, 0)],
    expl := [goal_state n] }

/-- The goal-rooted direction after relaxing the first goal neighbour. -/
def goalRelaxed1 (n : Nat) : Dir :=
  { openq := [(1 + manhattan_distance n (gnbU n), gnbU n)],
    came := (gnbU n, some (goal_state n)) :: [(goal_state n, none)],
    g := (gnbU n, 1) :: [(goal_state n, 0)],
    expl := [goal_state n] }

/-- The goal-rooted direction after relaxing both goal neighbours. -/
def goalRelaxed2 (n : Nat) : Dir :=
  { openq := [(1 + manhattan_distance n (gnbU n), gnbU n),
      (1 + manhattan_distance n (gnbL n), gnbL n)],
    came := (gnbL n, some (goal_state n)) :: (gnbU n, some (goal_state n)) ::
      [(goal_state n, none)],
    g := (gnbL n, 1) :: (gnbU n, 1) :: [(goal_state n, 0)],
    expl := [goal_state n] }

/-! Sanity checks of the embedding on concrete boards. -/

example : available_actions 2 [1, 2, 3, 0] =
    [Action.mk (1, 1) (0, 1), Action.mk (1, 1) (1, 0)] := by decide

example : do_action 2 [1, 2, 3, 0] (Action.mk (1, 1) (0, 1)) = [1, 0, 3, 2] := by decide

example : manhattan_distance 2 [1, 0, 3, 2] = 1 := by decide

example : is_solvable (goal_state 3) = true := by decide

example : goal_state 2 = [1, 2, 3, 0] := by decide

example : bidirectional_a_star 2 (goal_state 2) 10 = some (some [[1, 2, 3, 0]], 2) := by decide

/-! ## Dictionary, frontier and swap lemmas -/

/-- Lookup in an extended dictionary: the new binding shadows older ones. -/
theorem dictGet_cons {α : Type} (k' : Key) (v : α) (m : List (Key × α)) (k : Key) :
    dictGet ((k', v) :: m) k = if k' = k then some v else dictGet m k := by
  by_cases h : k' = k
  · simp [dictGet, List.find?_cons_of_pos, h]
  · rw [if_neg h]
    unfold dictGet
    rw [List.find?_cons_of_neg _ (by simpa using h)]

/-- A lookup succeeds exactly when the key is bound. -/
theorem dictGet_isSome_iff {α : Type} (m : List (Key × α)) (k : Key) :
    (dictGet m k).isSome ↔ k ∈ m.map Prod.fst := by
  induction m with
  | nil => simp [dictGet]
  | cons p m ih =>
      obtain ⟨k', v⟩ := p
      rw [dictGet_cons]
      by_cases h : k' = k
      · simp [h]
      · simp [h, ih, Ne.symm h]

/-- The running minimum of a fold is one of the folded elements. -/
theorem foldl_min_mem (e : Nat × Key) (es : List (Nat × Key)) :
    es.foldl (fun a b => if entryLE a b then a else b) e ∈ e :: es := by
  induction es generalizing e with
  | nil => simp
  | cons b bs ih =>
      simp only [List.foldl_cons]
      have h := ih (if entryLE e b then e else b)
      rcases List.mem_cons.mp h with h | h
      · by_cases hc : entryLE e b
        · simp only [if_pos hc] at h ⊢
          simp [h]
        · simp only [if_neg hc] at h ⊢
          simp [h]
      · simp [List.mem_cons.mpr (Or.inr h)]

/-- A successful pop returns a frontier member and erases it. -/
theorem heapPop_mem {l : List (Nat × Key)} {m : Nat × Key}
    {rest : List (Nat × Key)} (h : heapPop l = some (m, rest)) :
    m ∈ l ∧ rest = l.erase m := by
  cases l with
  | nil => simp [heapPop] at h
  | cons e es =>
      simp only [heapPop, Option.some_inj, Prod.mk.injEq] at h
      obtain ⟨h1, h2⟩ := h
      subst h1
      exact ⟨foldl_min_mem e es, h2.symm⟩

/-- A pop fails exactly on the empty frontier. -/
theorem heapPop_none_iff (l : List (Nat × Key)) : heapPop l = none ↔ l = [] := by
  cases l <;> simp [heapPop]

/-- First swapped cell of a two-cell exchange. -/
theorem getD_swap_fst (s : Key) (i j vi vj : Nat) (hi : i < s.length) (hij : j ≠ i) :
    ((s.set i vj).set j vi).getD i 0 = vj := by
  have h1 : i < ((s.set i vj).set j vi).length := by simpa using hi
  rw [List.getD_eq_getElem _ 0 h1, List.getElem_set_ne hij,
    List.getElem_set_self (h := by simpa using hi)]

/-- Second swapped cell of a two-cell exchange. -/
theorem getD_swap_snd (s : Key) (i j vi vj : Nat) (hj : j < s.length) :
    ((s.set i vj).set j vi).getD j 0 = vi := by
  have h1 : j < ((s.set i vj).set j vi).length := by simpa using hj
  rw [List.getD_eq_getElem _ 0 h1, List.getElem_set_self (h := h1)]

/-- Unswapped cells of a two-cell exchange. -/
theorem getD_swap_other (s : Key) (i j vi vj k : Nat) (hki : k ≠ i) (hkj : k ≠ j) :
    ((s.set i vj).set j vi).getD k 0 = s.getD k 0 := by
  by_cases hk : k < s.length
  · have h1 : k < ((s.set i vj).set j vi).length := by simpa using hk
    rw [List.getD_eq_getElem _ 0 h1, List.getElem_set_ne (fun h => hkj h.symm),
      List.getElem_set_ne (fun h => hki h.symm), List.getD_eq_getElem s 0 hk]
  · have hk' : s.length ≤ k := Nat.le_of_not_lt hk
    have hk'' : ((s.set i vj).set j vi).length ≤ k := by simpa using hk'
    simp [List.getD_eq_getElem?_getD, List.getElem?_eq_none hk',
      List.getElem?_eq_none hk'']

/-! ## Claim C1 -/

/-- Claim C1: the claim says the backward search pushes a relaxed neighbor at
priority `tentative gScore + manhattanDistance(neighbor, start)`.  The code's
heuristic takes no target and always measures to the standard goal: on the
2×2 board with start `[3,1,2,0]`, the first backward expansion (of the goal)
pushes the neighbor `[1,0,3,2]` at priority `2 = 1 + manhattan_distance` (to
the goal), whereas `1 + manhattanDistance(neighbor, start) = 4`. -/
theorem c1_backward_heuristic_measures_to_goal :
    (let st0 := initState 2 [3, 1, 2, 0]
     let st1 : BidirState :=
       match stepDir 2 st0.fwd st0.bwd st0.nodes with
       | (_, d, nodes) => { st0 with fwd := d, nodes := nodes }
     (stepDir 2 st1.bwd st1.fwd st1.nodes).2.1.openq =
       [(2, [1, 0, 3, 2]), (2, [1, 2, 0, 3])]) ∧
    2 = 1 + manhattan_distance 2 [1, 0, 3, 2] ∧
    2 ≠ 1 + manhattan_distance_to 2 [1, 0, 3, 2] [3, 1, 2, 0] := by
  refine ⟨by decide, by decide, by decide⟩

/-! ## Claim C2 -/

/-- Claim C2: the claim says `is_solvable` implements the generalized parity
rule, so on even boards every state an even number of legal moves from the
goal is accepted.  The code only tests that the inversion count is even: on
the 4×4 board, applying the legal moves up then left to the goal yields a
state with odd inversion count, and `is_solvable` rejects it. -/
theorem c2_solvable_misses_blank_row_parity :
    Action.mk (3, 3) (2, 3) ∈ available_actions 4 (goal_state 4) ∧
    Action.mk (2, 3) (2, 2) ∈
      available_actions 4 (do_action 4 (goal_state 4) (Action.mk (3, 3) (2, 3))) ∧
    is_solvable
      (do_action 4 (do_action 4 (goal_state 4) (Action.mk (3, 3) (2, 3)))
        (Action.mk (2, 3) (2, 2))) = false := by
  refine ⟨by decide, by decide, by decide⟩

/-! ## Claim C3 -/

/-- Claim C3 counterexample: a direction whose frontier top is a stale entry
(priority `9`, while the state's best gScore is `0` and its heuristic is
`0`).  The claim says such a pop is skipped without expansion, marking as
explored, or meeting test; the code instead marks the state explored and
relaxes both of its neighbors (`nodes_evaluated` rises from 0 to 2). -/
theorem c3_stale_pop_is_not_skipped :
    (let d : Dir :=
      { openq := [(9, [1, 2, 3, 0])], came := [([1, 2, 3, 0], none)],
        g := [([1, 2, 3, 0], 0)], expl := [] }
     let other : Dir := { openq := [], came := [], g := [], expl := [] }
     (9 : Nat) ≠ (dictGet d.g [1, 2, 3, 0]).getD 0 +
        manhattan_distance 2 [1, 2, 3, 0] ∧
     (stepDir 2 d other 0).2.1.expl = [[1, 2, 3, 0]] ∧
     (stepDir 2 d other 0).2.2 = 2) := by
  refine ⟨by decide, by decide, by decide⟩

/-- Claim C3 amended: the engine never performs a staleness check on a popped
entry.  Every popped entry — stale or not — is removed from the frontier,
marked explored, tested as a meeting point against the other direction's
explored set, and (when it is not a meeting point) expanded by relaxing all
its neighbors. -/
theorem c3_every_pop_is_processed (n : Nat) (d other : Dir) (nodes f : Nat)
    (k : Key) (rest : List (Nat × Key))
    (hpop : heapPop d.openq = some ((f, k), rest)) :
    stepDir n d other nodes =
      (let d' : Dir := { d with openq := rest, expl := k :: d.expl }
       if k ∈ other.expl then (some k, d', nodes)
       else (none, (relaxAll n k d' nodes).1, (relaxAll n k d' nodes).2)) := by
  simp only [stepDir, hpop]

/-- Claim C3 amended, witness: the stale configuration of the counterexample
satisfies the pop hypothesis, and the popped entry is processed, not
skipped. -/
theorem c3_every_pop_is_processed_witness :
    stepDir 2
        { openq := [(9, [1, 2, 3, 0])], came := [([1, 2, 3, 0], none)],
          g := [([1, 2, 3, 0], 0)], expl := [] }
        { openq := [], came := [], g := [], expl := [] } 0 =
      (let d' : Dir :=
        { openq := [], came := [([1, 2, 3, 0], none)],
          g := [([1, 2, 3, 0], 0)], expl := [[1, 2, 3, 0]] }
       if ([1, 2, 3, 0] : Key) ∈ ([] : List Key) then (some [1, 2, 3, 0], d', 0)
       else (none, (relaxAll 2 [1, 2, 3, 0] d' 0).1,
             (relaxAll 2 [1, 2, 3, 0] d' 0).2)) :=
  c3_every_pop_is_processed 2
    { openq := [(9, [1, 2, 3, 0])], came := [([1, 2, 3, 0], none)],
      g := [([1, 2, 3, 0], 0)], expl := [] }
    { openq := [], came := [], g := [], expl := [] } 0 9 [1, 2, 3, 0] []
    (by decide)

/-! ## Claim C6 -/

/-- Counting after an in-bounds `set`: the update trades the old entry for
the new one. -/
theorem count_set_add (l : List Nat) (i b v : Nat) (hi : i < l.length) :
    (l.set i b).count v + (if l[i] = v then 1 else 0)
      = l.count v + (if b = v then 1 else 0) := by
  induction l generalizing i with
  | nil => simp at hi
  | cons x xs ih =>
      cases i with
      | zero => simp [List.count_cons]; omega
      | succ i =>
          have hi' : i < xs.length := by simpa using hi
          have := ih i hi'
          simp only [List.set_cons_succ, List.count_cons, List.getElem_cons_succ]
          omega

/-- Exchanging the entries at two in-bounds positions is a permutation. -/
theorem perm_set_swap (l : List Nat) (i j : Nat) (hi : i < l.length) (hj : j < l.length) :
    ((l.set i (l.getD j 0)).set j (l.getD i 0)).Perm l := by
  rw [List.perm_iff_count]
  intro v
  have hdi : l.getD i 0 = l[i] := List.getD_eq_getElem l 0 hi
  have hdj : l.getD j 0 = l[j] := List.getD_eq_getElem l 0 hj
  rw [hdi, hdj]
  have hj' : j < (l.set i l[j]).length := by simpa using hj
  have h1 := count_set_add l i (l[j]) v hi
  have h2 := count_set_add (l.set i l[j]) j (l[i]) v hj'
  rcases eq_or_ne i j with rfl | hij
  · rw [List.getElem_set_self (h := hj')] at h2
    omega
  · rw [List.getElem_set_ne hij hj'] at h2
    omega

/-- Membership in an `if`-guarded singleton. -/
theorem mem_if_singleton {c : Prop} [Decidable c] {a u : Action} :
    (a ∈ if c then [u] else []) ↔ c ∧ a = u := by
  split_ifs with h <;> simp [h]

/-- Membership in `available_actions`: exactly the in-bounds swaps of the
blank with its four orthogonal neighbours, in terms of the blank's
coordinates. -/
theorem mem_available_actions (n : Nat) (s : Key) (a : Action) :
    a ∈ available_actions n s ↔
      ((0 < blankIdx s / n ∧
          a = ⟨(blankIdx s / n, blankIdx s % n), (blankIdx s / n - 1, blankIdx s % n)⟩) ∨
       (blankIdx s / n < n - 1 ∧
          a = ⟨(blankIdx s / n, blankIdx s % n), (blankIdx s / n + 1, blankIdx s % n)⟩) ∨
       (0 < blankIdx s % n ∧
          a = ⟨(blankIdx s / n, blankIdx s % n), (blankIdx s / n, blankIdx s % n - 1)⟩) ∨
       (blankIdx s % n < n - 1 ∧
          a = ⟨(blankIdx s / n, blankIdx s % n), (blankIdx s / n, blankIdx s % n + 1)⟩)) := by
  simp only [available_actions, blankIdx, List.mem_append, mem_if_singleton,
    gt_iff_lt]
  tauto

/-- Core of the move invariants: swapping the blank's cell with any other
in-bounds cell preserves the permutation, changes exactly those two cells,
and changes the blank's cell. -/
theorem c6_core (n : Nat) (s : Key) (a : Action)
    (hs : s.Perm (List.range (n * n)))
    (hp1 : a.pos1.1 * n + a.pos1.2 = blankIdx s)
    (hjlt : a.pos2.1 * n + a.pos2.2 < n * n)
    (hji : a.pos2.1 * n + a.pos2.2 ≠ blankIdx s) :
    (do_action n s a).Perm (List.range (n * n)) ∧
    ((Finset.range (n * n)).filter
        (fun i => (do_action n s a).getD i 0 ≠ s.getD i 0)).card = 2 ∧
    (do_action n s a).getD (blankIdx s) 0 ≠ s.getD (blankIdx s) 0 ∧
    (do_action n s a).count 0 = 1 := by
  classical
  have hlen : s.length = n * n := by simpa using hs.length_eq
  have hN : 0 < n * n := lt_of_le_of_lt (Nat.zero_le _) hjlt
  have hmem0 : (0 : Nat) ∈ s := hs.mem_iff.mpr (List.mem_range.mpr hN)
  have hidx : blankIdx s < s.length := List.indexOf_lt_length.mpr hmem0
  have hidxN : blankIdx s < n * n := hlen ▸ hidx
  have hs0 : s[blankIdx s] = 0 := List.getElem_indexOf hidx
  have hnd : s.Nodup := hs.nodup_iff.mpr (List.nodup_range _)
  have hjs : a.pos2.1 * n + a.pos2.2 < s.length := hlen ▸ hjlt
  have hda : do_action n s a =
      (s.set (blankIdx s) (s.getD (a.pos2.1 * n + a.pos2.2) 0)).set
        (a.pos2.1 * n + a.pos2.2) (s.getD (blankIdx s) 0) := by
    rw [do_action, hp1]
  have hvi : s.getD (blankIdx s) 0 = 0 := by
    rw [List.getD_eq_getElem s 0 hidx]; exact hs0
  have hvj0 : s.getD (a.pos2.1 * n + a.pos2.2) 0 ≠ 0 := by
    intro h
    have hj0 : s[a.pos2.1 * n + a.pos2.2] = 0 := by
      rw [← List.getD_eq_getElem s 0 hjs]; exact h
    exact hji (hnd.getElem_inj_iff.mp (hj0.trans hs0.symm))
  have hperm : (do_action n s a).Perm s := by
    rw [hda]; exact perm_set_swap s (blankIdx s) (a.pos2.1 * n + a.pos2.2) hidx hjs
  have hP : (do_action n s a).Perm (List.range (n * n)) := hperm.trans hs
  have hlent : (do_action n s a).length = s.length := hperm.length_eq
  have hti : (do_action n s a).getD (blankIdx s) 0 =
      s.getD (a.pos2.1 * n + a.pos2.2) 0 := by
    rw [hda]
    have h1 : blankIdx s <
        ((s.set (blankIdx s) (s.getD (a.pos2.1 * n + a.pos2.2) 0)).set
          (a.pos2.1 * n + a.pos2.2) (s.getD (blankIdx s) 0)).length := by
      simpa using hidx
    rw [List.getD_eq_getElem _ 0 h1, List.getElem_set_ne hji,
      List.getElem_set_self (h := by simpa using hidx)]
  have htj : (do_action n s a).getD (a.pos2.1 * n + a.pos2.2) 0 = 0 := by
    rw [hda]
    have h1 : a.pos2.1 * n + a.pos2.2 <
        ((s.set (blankIdx s) (s.getD (a.pos2.1 * n + a.pos2.2) 0)).set
          (a.pos2.1 * n + a.pos2.2) (s.getD (blankIdx s) 0)).length := by
      simpa using hjs
    rw [List.getD_eq_getElem _ 0 h1, List.getElem_set_self (h := h1), hvi]
  have htk : ∀ k, k ≠ blankIdx s → k ≠ a.pos2.1 * n + a.pos2.2 →
      (do_action n s a).getD k 0 = s.getD k 0 := by
    intro k hki hkj
    by_cases hk : k < s.length
    · have h1 : k <
          ((s.set (blankIdx s) (s.getD (a.pos2.1 * n + a.pos2.2) 0)).set
            (a.pos2.1 * n + a.pos2.2) (s.getD (blankIdx s) 0)).length := by
        simpa using hk
      rw [hda, List.getD_eq_getElem _ 0 h1,
        List.getElem_set_ne (fun h => hkj h.symm),
        List.getElem_set_ne (fun h => hki h.symm),
        List.getD_eq_getElem s 0 hk]
    · have hk' : s.length ≤ k := Nat.le_of_not_lt hk
      have hk'' : (do_action n s a).length ≤ k := hlent ▸ hk'
      simp [List.getD_eq_getElem?_getD, List.getElem?_eq_none hk',
        List.getElem?_eq_none hk'']
  have hfil : (Finset.range (n * n)).filter
      (fun i => (do_action n s a).getD i 0 ≠ s.getD i 0) =
      {blankIdx s, a.pos2.1 * n + a.pos2.2} := by
    ext k
    simp only [Finset.mem_filter, Finset.mem_range, Finset.mem_insert,
      Finset.mem_singleton]
    constructor
    · rintro ⟨hk, hne⟩
      by_contra hcon
      push_neg at hcon
      exact hne (htk k hcon.1 hcon.2)
    · rintro (rfl | rfl)
      · refine ⟨hidxN, ?_⟩
        rw [hti, hvi]; exact hvj0
      · refine ⟨hjlt, ?_⟩
        rw [htj]; exact fun h => hvj0 h.symm
  refine ⟨hP, ?_, ?_, ?_⟩
  · rw [hfil, Finset.card_insert_of_not_mem (by simpa using fun h => hji h.symm),
      Finset.card_singleton]
  · rw [hti, hvi]; exact hvj0
  · rw [hP.count_eq]
    exact List.count_eq_one_of_mem (List.nodup_range _) (List.mem_range.mpr hN)

/-- Index bounds of an available action: `pos1` is the blank, `pos2` is a
distinct in-bounds cell. -/
theorem available_action_bounds (n : Nat) (s : Key) (a : Action)
    (hs : s.Perm (List.range (n * n))) (ha : a ∈ available_actions n s) :
    a.pos1.1 * n + a.pos1.2 = blankIdx s ∧
    a.pos2.1 * n + a.pos2.2 < n * n ∧
    a.pos2.1 * n + a.pos2.2 ≠ blankIdx s := by
  classical
  rcases Nat.eq_zero_or_pos n with rfl | hn
  · have hnil : s = [] := by
      have := hs.length_eq
      simpa using List.length_eq_zero.mp (by simpa using this)
    rw [mem_available_actions] at ha
    subst hnil
    simp [blankIdx] at ha
  rw [mem_available_actions] at ha
  have hN : 0 < n * n := Nat.mul_pos hn hn
  have hmem0 : (0 : Nat) ∈ s := hs.mem_iff.mpr (List.mem_range.mpr hN)
  have hidx : blankIdx s < s.length := List.indexOf_lt_length.mpr hmem0
  have hlen : s.length = n * n := by simpa using hs.length_eq
  have hidxN : blankIdx s < n * n := hlen ▸ hidx
  have hdm : n * (blankIdx s / n) + blankIdx s % n = blankIdx s := Nat.div_add_mod _ n
  have hp1 : (blankIdx s / n) * n + blankIdx s % n = blankIdx s := by
    rw [Nat.mul_comm]; exact hdm
  have hy : blankIdx s % n < n := Nat.mod_lt _ hn
  have hxn : blankIdx s / n < n := (Nat.div_lt_iff_lt_mul hn).mpr hidxN
  rcases ha with ⟨hx, rfl⟩ | ⟨hx, rfl⟩ | ⟨hy0, rfl⟩ | ⟨hy1, rfl⟩
  · -- up: pos2 = (x-1, y)
    have hsub : (blankIdx s / n - 1) * n = (blankIdx s / n) * n - n := by
      rw [Nat.sub_mul, one_mul]
    have hnle : n ≤ (blankIdx s / n) * n := by
      have := Nat.mul_le_mul_right n hx
      simpa using this
    refine ⟨hp1, ?_, ?_⟩
    · show (blankIdx s / n - 1) * n + blankIdx s % n < n * n
      omega
    · show (blankIdx s / n - 1) * n + blankIdx s % n ≠ blankIdx s
      omega
  · -- down: pos2 = (x+1, y)
    have hadd : (blankIdx s / n + 1) * n = (blankIdx s / n) * n + n := by
      rw [Nat.add_mul, one_mul]
    have hb : blankIdx s / n + 2 ≤ n := by omega
    have hmul : (blankIdx s / n + 2) * n ≤ n * n := Nat.mul_le_mul_right n hb
    have hexp : (blankIdx s / n + 2) * n = (blankIdx s / n) * n + n + n := by ring
    refine ⟨hp1, ?_, ?_⟩
    · show (blankIdx s / n + 1) * n + blankIdx s % n < n * n
      omega
    · show (blankIdx s / n + 1) * n + blankIdx s % n ≠ blankIdx s
      omega
  · -- left: pos2 = (x, y-1)
    refine ⟨hp1, ?_, ?_⟩
    · show (blankIdx s / n) * n + (blankIdx s % n - 1) < n * n
      omega
    · show (blankIdx s / n) * n + (blankIdx s % n - 1) ≠ blankIdx s
      omega
  · -- right: pos2 = (x, y+1)
    have hadd : (blankIdx s / n + 1) * n = (blankIdx s / n) * n + n := by
      rw [Nat.add_mul, one_mul]
    have hmul : (blankIdx s / n + 1) * n ≤ n * n := Nat.mul_le_mul_right n (by omega)
    refine ⟨hp1, ?_, ?_⟩
    · show (blankIdx s / n) * n + (blankIdx s % n + 1) < n * n
      omega
    · show (blankIdx s / n) * n + (blankIdx s % n + 1) ≠ blankIdx s
      omega

/-- A legal move preserves the permutation invariant. -/
theorem do_action_perm (n : Nat) (s : Key) (a : Action)
    (hs : s.Perm (List.range (n * n))) (ha : a ∈ available_actions n s) :
    (do_action n s a).Perm (List.range (n * n)) := by
  obtain ⟨h1, h2, h3⟩ := available_action_bounds n s a hs ha
  exact (c6_core n s a hs h1 h2 h3).1

/-- A legal move changes the state. -/
theorem do_action_ne (n : Nat) (s : Key) (a : Action)
    (hs : s.Perm (List.range (n * n))) (ha : a ∈ available_actions n s) :
    do_action n s a ≠ s := by
  obtain ⟨h1, h2, h3⟩ := available_action_bounds n s a hs ha
  intro he
  exact (c6_core n s a hs h1 h2 h3).2.2.1 (by rw [he])

/-- Claim C6: for a valid state (a permutation of `0..n²-1`) and any
available action, `do_action` returns a permutation of `0..n²-1` (hence one
blank and every value exactly once, the last conjunct making the single
blank explicit), it differs from the input in exactly two flattened cells,
and one of them is the blank's position.  Non-mutation of the input is
inherent in the functional embedding: `do_action` builds a new list. -/
theorem c6_do_action_invariants (n : Nat) (s : Key) (a : Action)
    (hs : s.Perm (List.range (n * n))) (ha : a ∈ available_actions n s) :
    (do_action n s a).Perm (List.range (n * n)) ∧
    ((Finset.range (n * n)).filter
        (fun i => (do_action n s a).getD i 0 ≠ s.getD i 0)).card = 2 ∧
    (do_action n s a).getD (blankIdx s) 0 ≠ s.getD (blankIdx s) 0 ∧
    (do_action n s a).count 0 = 1 := by
  obtain ⟨h1, h2, h3⟩ := available_action_bounds n s a hs ha
  exact c6_core n s a hs h1 h2 h3

/-- Claim C6 witness: on the 2×2 board, moving the blank up from the goal
state satisfies every invariant. -/
theorem c6_do_action_invariants_witness :
    (do_action 2 [1, 2, 3, 0] (Action.mk (1, 1) (0, 1))).Perm (List.range (2 * 2)) ∧
    ((Finset.range (2 * 2)).filter
        (fun i => (do_action 2 [1, 2, 3, 0] (Action.mk (1, 1) (0, 1))).getD i 0 ≠
          ([1, 2, 3, 0] : Key).getD i 0)).card = 2 ∧
    (do_action 2 [1, 2, 3, 0] (Action.mk (1, 1) (0, 1))).getD (blankIdx [1, 2, 3, 0]) 0 ≠
      ([1, 2, 3, 0] : Key).getD (blankIdx [1, 2, 3, 0]) 0 ∧
    (do_action 2 [1, 2, 3, 0] (Action.mk (1, 1) (0, 1))).count 0 = 1 :=
  c6_do_action_invariants 2 [1, 2, 3, 0] (Action.mk (1, 1) (0, 1))
    (by decide) (by decide)

/-! ## Claim C7 -/

/-- Dividing a row-major index recovers the row. -/
theorem row_major_div (x y n : Nat) (hn : 0 < n) (hy : y < n) : (x * n + y) / n = x := by
  rw [Nat.mul_comm, Nat.mul_add_div hn, Nat.div_eq_of_lt hy]
  omega

/-- Taking a row-major index modulo `n` recovers the column. -/
theorem row_major_mod (x y n : Nat) (hy : y < n) : (x * n + y) % n = y := by
  rw [Nat.mul_comm, Nat.mul_add_mod, Nat.mod_eq_of_lt hy]

/-- The Manhattan distance vanishes exactly when every non-blank cell sits
at its goal coordinates. -/
theorem manhattan_distance_eq_zero_iff (n : Nat) (s : Key) :
    manhattan_distance n s = 0 ↔
      ∀ x, x < n → ∀ y, y < n →
        (s.getD (x * n + y) 0 = 0 ∨
         (x = (s.getD (x * n + y) 0 - 1) / n ∧ y = (s.getD (x * n + y) 0 - 1) % n)) := by
  unfold manhattan_distance
  rw [List.sum_eq_zero_iff]
  constructor
  · intro h x hx y hy
    have hx' := h _ (List.mem_map.mpr ⟨x, List.mem_range.mpr hx, rfl⟩)
    rw [List.sum_eq_zero_iff] at hx'
    have hy' := hx' _ (List.mem_map.mpr ⟨y, List.mem_range.mpr hy, rfl⟩)
    by_cases h0 : s.getD (x * n + y) 0 = 0
    · exact Or.inl h0
    · right
      rw [if_neg h0] at hy'
      have h1 : ((x : Int) - ((s.getD (x * n + y) 0 - 1) / n : Nat)).natAbs = 0 ∧
          ((y : Int) - ((s.getD (x * n + y) 0 - 1) % n : Nat)).natAbs = 0 :=
        Nat.add_eq_zero.mp hy'
      constructor
      · have := Int.natAbs_eq_zero.mp h1.1
        omega
      · have := Int.natAbs_eq_zero.mp h1.2
        omega
  · intro h t ht
    obtain ⟨x, hx, rfl⟩ := List.mem_map.mp ht
    rw [List.sum_eq_zero_iff]
    intro u hu
    obtain ⟨y, hy, rfl⟩ := List.mem_map.mp hu
    rw [List.mem_range] at hx hy
    by_cases h0 : s.getD (x * n + y) 0 = 0
    · rw [if_pos h0]
    · rcases h x hx y hy with h0' | ⟨hx1, hy1⟩
      · exact absurd h0' h0
      · rw [if_neg h0, ← hx1, ← hy1]
        simp

/-- Index form of the previous characterization: zero Manhattan distance
means every cell holds its own index plus one, or the blank. -/
theorem manhattan_zero_iff_fixed (n : Nat) (s : Key) (hn : 0 < n) :
    manhattan_distance n s = 0 ↔
      ∀ i, i < n * n → (s.getD i 0 = 0 ∨ s.getD i 0 = i + 1) := by
  rw [manhattan_distance_eq_zero_iff]
  constructor
  · intro h i hi
    have hx : i / n < n := (Nat.div_lt_iff_lt_mul hn).mpr hi
    have hy : i % n < n := Nat.mod_lt _ hn
    have hdm : i / n * n + i % n = i := by
      rw [Nat.mul_comm]; exact Nat.div_add_mod i n
    have hprop := h (i / n) hx (i % n) hy
    rw [hdm] at hprop
    by_cases h0 : s.getD i 0 = 0
    · exact Or.inl h0
    · right
      rcases hprop with h0' | ⟨h1, h2⟩
      · exact absurd h0' h0
      · have e1 := Nat.div_add_mod i n
        have e2 := Nat.div_add_mod (s.getD i 0 - 1) n
        rw [← h1, ← h2] at e2
        have hv : 1 ≤ s.getD i 0 := Nat.pos_of_ne_zero h0
        omega
  · intro h x hx y hy
    have hi : x * n + y < n * n := by
      have h1 : (x + 1) * n ≤ n * n := Nat.mul_le_mul_right n hx
      have h2 : (x + 1) * n = x * n + n := by ring
      omega
    rcases h (x * n + y) hi with h0 | h1
    · exact Or.inl h0
    · right
      rw [h1, Nat.add_sub_cancel]
      exact ⟨(row_major_div x y n hn hy).symm, (row_major_mod x y n hy).symm⟩

/-- The goal state has `n²` cells. -/
theorem goal_state_length (n : Nat) (hn : 0 < n) : (goal_state n).length = n * n := by
  have : 0 < n * n := Nat.mul_pos hn hn
  simp [goal_state]
  omega

/-- Cell contents of the goal state: each index holds its successor, except
the last cell, which is blank. -/
theorem goal_state_getD (n i : Nat) (hn : 0 < n) (hi : i < n * n) :
    (goal_state n).getD i 0 = if i = n * n - 1 then 0 else i + 1 := by
  have hN : 0 < n * n := Nat.mul_pos hn hn
  unfold goal_state
  by_cases h : i < n * n - 1
  · have h₁ : i < ((List.range (n * n - 1)).map (fun k => k + 1)).length := by
      simpa using h
    rw [if_neg (by omega), List.getD_eq_getElem?_getD, List.getElem?_append_left h₁]
    simp [h]
  · have h2 : i = n * n - 1 := by omega
    rw [if_pos h2, h2, List.getD_eq_getElem?_getD,
      List.getElem?_append_right (by simp)]
    simp

/-- Claim C7: for a valid state (a permutation of `0..n²-1` on a board with
`n ≥ 1`), the Manhattan distance is zero exactly for the goal state (values
`1..n²-1` in row-major order with the blank last). -/
theorem c7_manhattan_zero_iff_goal (n : Nat) (s : Key) (hn : 0 < n)
    (hs : s.Perm (List.range (n * n))) :
    manhattan_distance n s = 0 ↔ s = goal_state n := by
  constructor
  · intro h
    have hfix := (manhattan_zero_iff_fixed n s hn).mp h
    have hlen : s.length = n * n := by simpa using hs.length_eq
    have hstep : ∀ i, i < n * n - 1 → s.getD i 0 = i + 1 := by
      intro i hi
      rcases hfix i (by omega) with h0 | h1
      · exfalso
        have hmem : (i + 1) ∈ s := hs.mem_iff.mpr (List.mem_range.mpr (by omega))
        obtain ⟨jj, hjj, hv⟩ := List.mem_iff_getElem.mp hmem
        have hjn : jj < n * n := hlen ▸ hjj
        have hgd : s.getD jj 0 = i + 1 := by
          rw [List.getD_eq_getElem s 0 hjj]; exact hv
        rcases hfix jj hjn with h0' | h1'
        · omega
        · have hji : jj = i := by omega
          rw [hji] at hgd
          omega
      · exact h1
    have hlast : s.getD (n * n - 1) 0 = 0 := by
      have hmem : (0 : Nat) ∈ s :=
        hs.mem_iff.mpr (List.mem_range.mpr (Nat.mul_pos hn hn))
      obtain ⟨b, hb, hv⟩ := List.mem_iff_getElem.mp hmem
      have hbn : b < n * n := hlen ▸ hb
      have hgd : s.getD b 0 = 0 := by
        rw [List.getD_eq_getElem s 0 hb]; exact hv
      by_cases hb1 : b < n * n - 1
      · have := hstep b hb1; omega
      · have hbeq : b = n * n - 1 := by omega
        rw [← hbeq]; exact hgd
    apply List.ext_getElem (by rw [hlen, goal_state_length n hn])
    intro i h1 h2
    have hi : i < n * n := hlen ▸ h1
    by_cases hilast : i = n * n - 1
    · rw [← List.getD_eq_getElem s 0 h1, ← List.getD_eq_getElem _ 0 h2,
        goal_state_getD n i hn hi, if_pos hilast, hilast, hlast]
    · rw [← List.getD_eq_getElem s 0 h1, ← List.getD_eq_getElem _ 0 h2,
        goal_state_getD n i hn hi, if_neg hilast, hstep i (by omega)]
  · intro h
    subst h
    rw [manhattan_zero_iff_fixed n _ hn]
    intro i hi
    rw [goal_state_getD n i hn hi]
    by_cases hl : i = n * n - 1
    · simp [hl]
    · simp [hl]

/-- Claim C7 witness: the 2×2 goal state is a valid state with Manhattan
distance zero, and the characterization applies to it. -/
theorem c7_manhattan_zero_iff_goal_witness :
    manhattan_distance 2 (goal_state 2) = 0 ↔ goal_state 2 = goal_state 2 :=
  c7_manhattan_zero_iff_goal 2 (goal_state 2) (by decide) (by decide)

/-! ## Search invariants: dictionary domains and the termination measure -/

/-- Lookup success in an extended dictionary. -/
theorem isSome_dictGet_cons {α : Type} (k' : Key) (v : α) (m : List (Key × α)) (k : Key) :
    (dictGet ((k', v) :: m) k).isSome ↔ k' = k ∨ (dictGet m k).isSome := by
  rw [dictGet_cons]
  by_cases h : k' = k <;> simp [h]

/-- Re-binding an existing key does not grow the domain. -/
theorem domCard_cons_of_isSome {α : Type} (k : Key) (v : α) (m : List (Key × α))
    (h : (dictGet m k).isSome) : domCard ((k, v) :: m) = domCard m := by
  unfold domCard
  rw [List.map_cons, List.toFinset_cons,
    Finset.insert_eq_self.mpr (List.mem_toFinset.mpr ((dictGet_isSome_iff m k).mp h))]

/-- Binding a fresh key grows the domain by one. -/
theorem domCard_cons_of_none {α : Type} (k : Key) (v : α) (m : List (Key × α))
    (h : dictGet m k = none) : domCard ((k, v) :: m) = domCard m + 1 := by
  unfold domCard
  rw [List.map_cons, List.toFinset_cons, Finset.card_insert_of_not_mem]
  intro hmem
  have := (dictGet_isSome_iff m k).mpr (List.mem_toFinset.mp hmem)
  rw [h] at this
  simp at this

/-- A gScore map whose keys are all permutations has at most `card (KS n)`
distinct keys. -/
theorem domCard_le_KS (n : Nat) (g : List (Key × Nat))
    (hkeys : ∀ k v, dictGet g k = some v → k.Perm (List.range (n * n))) :
    domCard g ≤ (KS n).card := by
  apply Finset.card_le_card
  intro k hk
  have h1 := (dictGet_isSome_iff g k).mpr (List.mem_toFinset.mp hk)
  obtain ⟨v, hv⟩ := Option.isSome_iff_exists.mp h1
  exact List.mem_toFinset.mpr (List.mem_permutations.mpr (hkeys k v hv))

/-- Rebinding a key of `KS n` to a strictly smaller value strictly lowers
the gScore mass. -/
theorem sum_gval_cons_le (n : Nat) (g : List (Key × Nat)) (nb : Key) (tg : Nat)
    (hmem : nb ∈ KS n) (hlt : tg + 1 ≤ gval n g nb) :
    (KS n).sum (fun k => gval n ((nb, tg) :: g) k) + 1 ≤
      (KS n).sum (fun k => gval n g k) := by
  have h1 := Finset.add_sum_erase (KS n) (fun k => gval n ((nb, tg) :: g) k) hmem
  have h2 := Finset.add_sum_erase (KS n) (fun k => gval n g k) hmem
  have h3 : ∀ k ∈ (KS n).erase nb, gval n ((nb, tg) :: g) k = gval n g k := by
    intro k hk
    have hne : nb ≠ k := fun h => Finset.ne_of_mem_erase hk h.symm
    unfold gval
    rw [dictGet_cons, if_neg hne]
  rw [Finset.sum_congr rfl h3] at h1
  have h4 : gval n ((nb, tg) :: g) nb = tg := by
    unfold gval
    rw [dictGet_cons, if_pos rfl]
    rfl
  beta_reduce at h1 h2
  have h5 : ((KS n).erase nb).sum (gval n g) = ∑ x ∈ (KS n).erase nb, gval n g x := rfl
  omega

/-! ## Relaxation preserves the invariant -/

/-- A relaxation of a fresh neighbor records and pushes it. -/
theorem relaxStep_of_fresh (n : Nat) (current : Key) (d : Dir) (nodes : Nat) (a : Action)
    (h : dictGet d.g (do_action n current a) = none) :
    relaxStep n current (d, nodes) a =
      ({ d with
          g := (do_action n current a, (dictGet d.g current).getD 0 + 1) :: d.g
          openq := d.openq ++ [((dictGet d.g current).getD 0 + 1 +
            manhattan_distance n (do_action n current a), do_action n current a)]
          came := (do_action n current a, some current) :: d.came }, nodes + 1) := by
  simp [relaxStep, h]

/-- A relaxation that strictly improves a recorded neighbor records and
pushes it. -/
theorem relaxStep_of_improve (n : Nat) (current : Key) (d : Dir) (nodes : Nat)
    (a : Action) (old : Nat)
    (h : dictGet d.g (do_action n current a) = some old)
    (hlt : (dictGet d.g current).getD 0 + 1 < old) :
    relaxStep n current (d, nodes) a =
      ({ d with
          g := (do_action n current a, (dictGet d.g current).getD 0 + 1) :: d.g
          openq := d.openq ++ [((dictGet d.g current).getD 0 + 1 +
            manhattan_distance n (do_action n current a), do_action n current a)]
          came := (do_action n current a, some current) :: d.came }, nodes + 1) := by
  simp [relaxStep, h, hlt]

/-- A relaxation that does not improve leaves everything unchanged. -/
theorem relaxStep_of_skip (n : Nat) (current : Key) (d : Dir) (nodes : Nat)
    (a : Action) (old : Nat)
    (h : dictGet d.g (do_action n current a) = some old)
    (hge : ¬ (dictGet d.g current).getD 0 + 1 < old) :
    relaxStep n current (d, nodes) a = (d, nodes) := by
  simp [relaxStep, h, hge]

/-- Relaxing one neighbor into the search state preserves the invariant and
does not increase the termination measure. -/
theorem relax_target_inv (n : Nat) (root current : Key) (d : Dir) (a : Action) (gc : Nat)
    (inv : DirInv n root d) (hgc : dictGet d.g current = some gc)
    (hcp : current.Perm (List.range (n * n))) (ha : a ∈ available_actions n current)
    (hbetter : ∀ old, dictGet d.g (do_action n current a) = some old → gc + 1 < old) :
    DirInv n root
      { openq := d.openq ++ [(gc + 1 + manhattan_distance n (do_action n current a),
          do_action n current a)]
        came := (do_action n current a, some current) :: d.came
        g := (do_action n current a, gc + 1) :: d.g
        expl := d.expl } ∧
    measureDir n
      { openq := d.openq ++ [(gc + 1 + manhattan_distance n (do_action n current a),
          do_action n current a)]
        came := (do_action n current a, some current) :: d.came
        g := (do_action n current a, gc + 1) :: d.g
        expl := d.expl } ≤ measureDir n d := by
  have hnbp : (do_action n current a).Perm (List.range (n * n)) :=
    do_action_perm n current a hcp ha
  have hnbc : do_action n current a ≠ current := do_action_ne n current a hcp ha
  have hnbroot : do_action n current a ≠ root := by
    intro h
    have := hbetter 0 (by rw [h]; exact inv.g_root)
    omega
  constructor
  · refine ⟨?_, ?_, ?_, ?_, ?_, ?_, ?_, ?_, ?_⟩
    · show dictGet _ root = some 0
      rw [dictGet_cons, if_neg hnbroot]
      exact inv.g_root
    · show dictGet _ root = some none
      rw [dictGet_cons, if_neg hnbroot]
      exact inv.came_root
    · intro k v hk
      rw [dictGet_cons] at hk
      by_cases hnk : do_action n current a = k
      · exact hnk ▸ hnbp
      · rw [if_neg hnk] at hk
        exact inv.keys_perm k v hk
    · intro e he
      rcases List.mem_append.mp he with he | he
      · rw [isSome_dictGet_cons]
        exact Or.inr (inv.openq_g e he)
      · rw [List.mem_singleton.mp he, isSome_dictGet_cons]
        exact Or.inl rfl
    · intro k hk
      rw [isSome_dictGet_cons]
      exact Or.inr (inv.expl_g k hk)
    · intro k
      rw [isSome_dictGet_cons, isSome_dictGet_cons]
      exact or_congr Iff.rfl (inv.dom_eq k)
    · intro k v hk hkroot
      rw [dictGet_cons] at hk
      by_cases hnk : do_action n current a = k
      · rw [if_pos hnk] at hk
        injection hk with hv
        refine ⟨current, gc, a, ?_, ?_, ?_, ha, hnk.symm⟩
        · rw [dictGet_cons, if_pos hnk]
        · rw [dictGet_cons, if_neg hnbc]
          exact hgc
        · omega
      · rw [if_neg hnk] at hk
        obtain ⟨p, w, x, hcame, hgp, hwv, hxmem, hkp⟩ := inv.chain k v hk hkroot
        by_cases hpn : do_action n current a = p
        · have hold := hbetter w (by rw [hpn]; exact hgp)
          refine ⟨p, gc + 1, x, ?_, ?_, ?_, hxmem, hkp⟩
          · rw [dictGet_cons, if_neg hnk]
            exact hcame
          · rw [dictGet_cons, if_pos hpn]
          · omega
        · refine ⟨p, w, x, ?_, ?_, hwv, hxmem, hkp⟩
          · rw [dictGet_cons, if_neg hnk]
            exact hcame
          · rw [dictGet_cons, if_neg hpn]
            exact hgp
    · intro k hk
      rw [dictGet_cons] at hk
      by_cases hnk : do_action n current a = k
      · rw [if_pos hnk] at hk
        simp at hk
      · rw [if_neg hnk] at hk
        exact inv.came_none k hk
    · intro k v hk
      rw [dictGet_cons] at hk
      show v + 1 ≤ domCard ((do_action n current a, gc + 1) :: d.g)
      rcases hfresh : dictGet d.g (do_action n current a) with _ | old
      · rw [domCard_cons_of_none _ _ _ hfresh]
        by_cases hnk : do_action n current a = k
        · rw [if_pos hnk] at hk
          injection hk with hv
          have := inv.g_bound current gc hgc
          omega
        · rw [if_neg hnk] at hk
          have := inv.g_bound k v hk
          omega
      · rw [domCard_cons_of_isSome _ _ _ (by rw [hfresh]; rfl)]
        by_cases hnk : do_action n current a = k
        · rw [if_pos hnk] at hk
          injection hk with hv
          have h1 := hbetter old hfresh
          have h2 := inv.g_bound _ old hfresh
          omega
        · rw [if_neg hnk] at hk
          exact inv.g_bound k v hk
  · change (KS n).sum (fun k => gval n ((do_action n current a, gc + 1) :: d.g) k) +
        (d.openq ++ [(gc + 1 + manhattan_distance n (do_action n current a),
          do_action n current a)]).length ≤
      (KS n).sum (fun k => gval n d.g k) + d.openq.length
    have hmem : do_action n current a ∈ KS n :=
      List.mem_toFinset.mpr (List.mem_permutations.mpr hnbp)
    have hlt : gc + 1 + 1 ≤ gval n d.g (do_action n current a) := by
      unfold gval
      rcases hfresh : dictGet d.g (do_action n current a) with _ | old
      · have h1 := inv.g_bound current gc hgc
        have h2 := domCard_le_KS n d.g inv.keys_perm
        simp only [Option.getD_none]
        omega
      · have := hbetter old hfresh
        simp only [Option.getD_some]
        omega
    have hsum := sum_gval_cons_le n d.g (do_action n current a) (gc + 1) hmem hlt
    have hlen : (d.openq ++ [(gc + 1 + manhattan_distance n (do_action n current a),
        do_action n current a)]).length = d.openq.length + 1 := by simp
    omega

/-- One relaxation step preserves the invariant, the current state's
gScore, the explored set, and never increases the measure. -/
theorem relaxStep_preserves (n : Nat) (root current : Key) (d : Dir) (nodes : Nat)
    (a : Action) (gc : Nat)
    (inv : DirInv n root d) (hgc : dictGet d.g current = some gc)
    (hcp : current.Perm (List.range (n * n))) (ha : a ∈ available_actions n current) :
    DirInv n root (relaxStep n current (d, nodes) a).1 ∧
    dictGet (relaxStep n current (d, nodes) a).1.g current = some gc ∧
    measureDir n (relaxStep n current (d, nodes) a).1 ≤ measureDir n d ∧
    (relaxStep n current (d, nodes) a).1.expl = d.expl := by
  have hnbc : do_action n current a ≠ current := do_action_ne n current a hcp ha
  have htg : (dictGet d.g current).getD 0 + 1 = gc + 1 := by rw [hgc]; rfl
  rcases hfresh : dictGet d.g (do_action n current a) with _ | old
  · rw [relaxStep_of_fresh n current d nodes a hfresh, htg]
    have hti := relax_target_inv n root current d a gc inv hgc hcp ha
      (fun old h => by rw [hfresh] at h; exact absurd h (by simp))
    refine ⟨hti.1, ?_, hti.2, rfl⟩
    rw [dictGet_cons, if_neg hnbc]
    exact hgc
  · by_cases hlt : gc + 1 < old
    · rw [relaxStep_of_improve n current d nodes a old hfresh (by omega), htg]
      have hti := relax_target_inv n root current d a gc inv hgc hcp ha
        (fun old' h => by rw [hfresh] at h; injection h with h'; omega)
      refine ⟨hti.1, ?_, hti.2, rfl⟩
      rw [dictGet_cons, if_neg hnbc]
      exact hgc
    · rw [relaxStep_of_skip n current d nodes a old hfresh (by omega)]
      exact ⟨inv, hgc, le_refl _, rfl⟩

/-- Folding relaxation steps over any list of available actions preserves
the invariant, the current state's gScore, the explored set, and never
increases the measure. -/
theorem relax_fold_preserves (n : Nat) (root current : Key)
    (hcp : current.Perm (List.range (n * n))) :
    ∀ acts : List Action, (∀ x ∈ acts, x ∈ available_actions n current) →
    ∀ d nodes gc, DirInv n root d → dictGet d.g current = some gc →
      DirInv n root (acts.foldl (relaxStep n current) (d, nodes)).1 ∧
      dictGet (acts.foldl (relaxStep n current) (d, nodes)).1.g current = some gc ∧
      measureDir n (acts.foldl (relaxStep n current) (d, nodes)).1 ≤ measureDir n d ∧
      (acts.foldl (relaxStep n current) (d, nodes)).1.expl = d.expl := by
  intro acts
  induction acts with
  | nil => exact fun _ d nodes gc inv hgc => ⟨inv, hgc, le_refl _, rfl⟩
  | cons a acts ih =>
      intro hacts d nodes gc inv hgc
      have hstep := relaxStep_preserves n root current d nodes a gc inv hgc hcp
        (hacts a (List.mem_cons_self a acts))
      rw [List.foldl_cons]
      have ih' := ih (fun x hx => hacts x (List.mem_cons_of_mem a hx))
        (relaxStep n current (d, nodes) a).1 (relaxStep n current (d, nodes) a).2 gc
        hstep.1 hstep.2.1
      exact ⟨ih'.1, ih'.2.1, le_trans ih'.2.2.1 hstep.2.2.1,
        ih'.2.2.2.trans hstep.2.2.2⟩

/-- Expanding a recorded valid state preserves the invariant and never
increases the measure. -/
theorem relaxAll_preserves (n : Nat) (root current : Key) (d : Dir) (nodes gc : Nat)
    (inv : DirInv n root d) (hgc : dictGet d.g current = some gc)
    (hcp : current.Perm (List.range (n * n))) :
    DirInv n root (relaxAll n current d nodes).1 ∧
    measureDir n (relaxAll n current d nodes).1 ≤ measureDir n d ∧
    (relaxAll n current d nodes).1.expl = d.expl := by
  have h := relax_fold_preserves n root current hcp (available_actions n current)
    (fun _ hx => hx) d nodes gc inv hgc
  exact ⟨h.1, h.2.2.1, h.2.2.2⟩

/-- One directional block of the main loop preserves the invariant; when
the frontier is non-empty it strictly decreases the measure. -/
theorem stepDir_preserves (n : Nat) (root : Key) (d other : Dir) (nodes : Nat)
    (inv : DirInv n root d) :
    DirInv n root (stepDir n d other nodes).2.1 ∧
    measureDir n (stepDir n d other nodes).2.1 ≤ measureDir n d ∧
    (d.openq ≠ [] → measureDir n (stepDir n d other nodes).2.1 < measureDir n d) := by
  rcases hpop : heapPop d.openq with _ | ⟨⟨f, current⟩, rest⟩
  · rw [heapPop_none_iff] at hpop
    simp only [stepDir, hpop, heapPop]
    exact ⟨inv, le_refl _, fun h => absurd rfl h⟩
  · obtain ⟨hmem, hrest⟩ := heapPop_mem hpop
    have hlenq : rest.length = d.openq.length - 1 := by
      rw [hrest]; exact List.length_erase_of_mem hmem
    have hqpos : 0 < d.openq.length := List.length_pos.mpr (List.ne_nil_of_mem hmem)
    have hsome : (dictGet d.g current).isSome := inv.openq_g (f, current) hmem
    obtain ⟨gc, hgc⟩ := Option.isSome_iff_exists.mp hsome
    have hcp : current.Perm (List.range (n * n)) := inv.keys_perm current gc hgc
    have inv₁ : DirInv n root
        { openq := rest, came := d.came, g := d.g, expl := current :: d.expl } := by
      refine ⟨inv.g_root, inv.came_root, inv.keys_perm, ?_, ?_, inv.dom_eq,
        inv.chain, inv.came_none, inv.g_bound⟩
      · intro e he
        exact inv.openq_g e ((hrest ▸ he : e ∈ d.openq.erase (f, current)) |>
          (List.erase_sublist _ _).mem)
      · intro k hk
        rcases List.mem_cons.mp hk with rfl | hk
        · exact hsome
        · exact inv.expl_g k hk
    have hmeas₁ : measureDir n
        { openq := rest, came := d.came, g := d.g, expl := current :: d.expl } <
        measureDir n d := by
      unfold measureDir
      simp only
      omega
    simp only [stepDir, hpop]
    by_cases hexp : current ∈ other.expl
    · simp only [if_pos hexp]
      exact ⟨inv₁, le_of_lt hmeas₁, fun _ => hmeas₁⟩
    · simp only [if_neg hexp]
      have hall := relaxAll_preserves n root current
        { openq := rest, came := d.came, g := d.g, expl := current :: d.expl }
        nodes gc inv₁ hgc hcp
      exact ⟨hall.1, le_of_lt (lt_of_le_of_lt hall.2.1 hmeas₁),
        fun _ => lt_of_le_of_lt hall.2.1 hmeas₁⟩

/-! ## Whole-engine invariant -/

/-- The goal state is a permutation of the cell values. -/
theorem goal_state_perm (n : Nat) (hn : 0 < n) :
    (goal_state n).Perm (List.range (n * n)) := by
  have hN : 0 < n * n := Nat.mul_pos hn hn
  have h1 : (goal_state n).Perm (0 :: (List.range (n * n - 1)).map (fun i => i + 1)) :=
    List.perm_append_singleton 0 _
  have h2 : List.range (n * n) = 0 :: (List.range (n * n - 1)).map (fun i => i + 1) := by
    have : n * n = (n * n - 1) + 1 := by omega
    rw [this, List.range_succ_eq_map]
    simp [Nat.succ_eq_add_one, Nat.add_comm]
  rw [h2]
  exact h1

/-- A freshly seeded direction satisfies the invariant. -/
theorem a_star_search_inv (n : Nat) (root target : Key) (b : Bool)
    (hroot : root.Perm (List.range (n * n))) :
    DirInv n root (a_star_search n root target b) := by
  refine ⟨?_, ?_, ?_, ?_, ?_, ?_, ?_, ?_, ?_⟩
  · rw [show (a_star_search n root target b).g = [(root, 0)] from rfl,
      dictGet_cons, if_pos rfl]
  · rw [show (a_star_search n root target b).came = [(root, none)] from rfl,
      dictGet_cons, if_pos rfl]
  · intro k v hk
    rw [show (a_star_search n root target b).g = [(root, 0)] from rfl,
      dictGet_cons] at hk
    by_cases h : root = k
    · exact h ▸ hroot
    · rw [if_neg h] at hk
      simp [dictGet] at hk
  · intro e he
    rw [show (a_star_search n root target b).openq =
      [(manhattan_distance n root, root)] from rfl] at he
    rw [List.mem_singleton.mp he,
      show (a_star_search n root target b).g = [(root, 0)] from rfl,
      dictGet_cons, if_pos rfl]
    rfl
  · intro k hk
    rw [show (a_star_search n root target b).expl = [] from rfl] at hk
    simp at hk
  · intro k
    rw [show (a_star_search n root target b).g = [(root, 0)] from rfl,
      show (a_star_search n root target b).came = [(root, none)] from rfl,
      dictGet_cons, dictGet_cons]
    by_cases h : root = k <;> simp [h, dictGet]
  · intro k v hk hkroot
    rw [show (a_star_search n root target b).g = [(root, 0)] from rfl,
      dictGet_cons] at hk
    by_cases h : root = k
    · exact absurd h.symm hkroot
    · rw [if_neg h] at hk
      simp [dictGet] at hk
  · intro k hk
    rw [show (a_star_search n root target b).came = [(root, none)] from rfl,
      dictGet_cons] at hk
    by_cases h : root = k
    · exact h.symm
    · rw [if_neg h] at hk
      simp [dictGet] at hk
  · intro k v hk
    rw [show (a_star_search n root target b).g = [(root, 0)] from rfl,
      dictGet_cons] at hk
    by_cases h : root = k
    · rw [if_pos h] at hk
      injection hk with hv
      subst hv
      show 1 ≤ domCard [(root, 0)]
      rw [domCard_cons_of_none root 0 [] (by simp [dictGet])]
      omega
    · rw [if_neg h] at hk
      simp [dictGet] at hk

/-- The initial engine state satisfies the whole-engine invariant. -/
theorem initState_inv (n : Nat) (start : Key) (hn : 0 < n)
    (hs : start.Perm (List.range (n * n))) :
    BidirInv n start (initState n start) :=
  ⟨a_star_search_inv n start (goal_state n) true hs,
   a_star_search_inv n (goal_state n) start false (goal_state_perm n hn)⟩

/-- A full loop iteration that continues preserves the invariant and
strictly decreases the measure. -/
theorem iterOnce_inr (n : Nat) (start : Key) (st st' : BidirState)
    (inv : BidirInv n start st) (h : iterOnce n st = Sum.inr st') :
    BidirInv n start st' ∧ measureSt n st' < measureSt n st := by
  unfold iterOnce at h
  by_cases hg : st.fwd.openq = [] ∨ st.bwd.openq = []
  · rw [if_pos hg] at h
    exact absurd h (by simp)
  · rw [if_neg hg] at h
    push_neg at hg
    rcases hf : stepDir n st.fwd st.bwd st.nodes with ⟨mf, df, nodesf⟩
    rw [hf] at h
    cases mf with
    | some m => exact absurd h (by simp)
    | none =>
        simp only at h
        have hred : stepDir n { st with fwd := df, nodes := nodesf }.bwd
            { st with fwd := df, nodes := nodesf }.fwd
            { st with fwd := df, nodes := nodesf }.nodes =
            stepDir n st.bwd df nodesf := rfl
        rw [hred] at h
        rcases hb : stepDir n st.bwd df nodesf with ⟨mb, db, nodesb⟩
        rw [hb] at h
        cases mb with
        | some m => exact absurd h (by simp)
        | none =>
            simp only at h
            have hfwd := stepDir_preserves n start st.fwd st.bwd st.nodes inv.1
            rw [hf] at hfwd
            have hbwd := stepDir_preserves n (goal_state n) st.bwd df nodesf inv.2
            rw [hb] at hbwd
            have h1 := hfwd.2.2 hg.1
            have h2 := hbwd.2.2 hg.2
            have hst' : st' = { fwd := df, bwd := db, nodes := nodesb } :=
              (Sum.inr.inj h).symm
            subst hst'
            simp only at hfwd hbwd h1 h2
            refine ⟨⟨hfwd.1, hbwd.1⟩, ?_⟩
            unfold measureSt
            simp only
            omega

/-- The invariant holds at every engine state reachable from a valid
initial state. -/
theorem reaches_inv (n : Nat) (start : Key) (st st' : BidirState)
    (inv : BidirInv n start st) (h : Reaches n st st') : BidirInv n start st' := by
  induction h with
  | refl => exact inv
  | tail _ hstep ih => exact (iterOnce_inr n start _ _ ih hstep).1

/-! ## Predecessor chains and loop unrolling -/

/-- Unfolding equation of the chain walk at a present node. -/
theorem walkChain_succ_some (came : List (Key × Option Key)) (fuel : Nat) (k : Key) :
    walkChain came (fuel + 1) (some k) = k :: walkChain came fuel (cameGet came k) := rfl

/-- The chain walk stops at `none`. -/
theorem walkChain_none (came : List (Key × Option Key)) (fuel : Nat) :
    walkChain came fuel none = [] := by
  cases fuel <;> rfl

/-- Maps with the same bound keys have the same number of distinct keys. -/
theorem domCard_eq_of_dom_eq {α β : Type} (m₁ : List (Key × α)) (m₂ : List (Key × β))
    (h : ∀ k, (dictGet m₁ k).isSome ↔ (dictGet m₂ k).isSome) :
    domCard m₁ = domCard m₂ := by
  unfold domCard
  congr 1
  ext k
  rw [List.mem_toFinset, List.mem_toFinset, ← dictGet_isSome_iff, ← dictGet_isSome_iff]
  exact h k

/-- Any recorded gScore is below the predecessor map's length. -/
theorem g_lt_came_length (n : Nat) (root : Key) (d : Dir) (inv : DirInv n root d)
    (k : Key) (v : Nat) (hk : dictGet d.g k = some v) : v + 1 ≤ d.came.length := by
  have h1 := inv.g_bound k v hk
  have h2 : domCard d.g = domCard d.came := domCard_eq_of_dom_eq _ _ inv.dom_eq
  have h3 : domCard d.came ≤ d.came.length := by
    unfold domCard
    exact le_trans (List.toFinset_card_le _) (by simp)
  omega

/-- Walking the predecessor chain from any recorded state, with fuel above
its gScore, yields a non-empty path that starts at the state, ends at the
root, follows legal moves backwards, and visits only recorded states. -/
theorem walkChain_spec (n : Nat) (root : Key) (d : Dir) (inv : DirInv n root d) :
    ∀ v k fuel, dictGet d.g k = some v → v + 1 ≤ fuel →
      walkChain d.came fuel (some k) ≠ [] ∧
      (walkChain d.came fuel (some k)).head? = some k ∧
      (walkChain d.came fuel (some k)).getLast? = some root ∧
      List.Chain' (fun a b => ∃ x ∈ available_actions n b, a = do_action n b x)
        (walkChain d.came fuel (some k)) ∧
      ∀ e ∈ walkChain d.came fuel (some k), (dictGet d.g e).isSome := by
  intro v
  induction v using Nat.strong_induction_on with
  | _ v ih =>
    intro k fuel hk hfuel
    obtain ⟨fuel', rfl⟩ : ∃ f', fuel = f' + 1 := ⟨fuel - 1, by omega⟩
    by_cases hkroot : k = root
    · subst hkroot
      have hcg : cameGet d.came k = none := by
        unfold cameGet
        rw [inv.came_root]
        rfl
      rw [walkChain_succ_some, hcg, walkChain_none]
      refine ⟨by simp, by simp, by simp, List.chain'_singleton k, ?_⟩
      intro e he
      rw [List.mem_singleton.mp he, hk]
      rfl
    · obtain ⟨p, w, x, hcame, hgp, hwv, hxmem, hkp⟩ := inv.chain k v hk hkroot
      have hcg : cameGet d.came k = some p := by
        unfold cameGet
        rw [hcame]
        rfl
      have hrec := ih w hwv p fuel' hgp (by omega)
      obtain ⟨hne, hhead, hlast, hchain, hmem⟩ := hrec
      rw [walkChain_succ_some, hcg]
      obtain ⟨hd, tl, htl⟩ := List.exists_cons_of_ne_nil hne
      refine ⟨by simp, by simp, ?_, ?_, ?_⟩
      · rw [htl, List.getLast?_cons_cons, ← htl]
        exact hlast
      · rw [List.chain'_cons']
        refine ⟨?_, hchain⟩
        intro b hb
        rw [hhead] at hb
        have hbp : p = b := by simpa using hb
        rw [← hbp]
        exact ⟨x, hxmem, hkp⟩
      · intro e he
        rcases List.mem_cons.mp he with rfl | he
        · rw [hk]; rfl
        · exact hmem e he

/-- A loop run that exits did so from a reachable state. -/
theorem loop_eq_inl (n : Nat) : ∀ fuel (st : BidirState) r, loop n fuel st = some r →
    ∃ st', Reaches n st st' ∧ iterOnce n st' = Sum.inl r := by
  intro fuel
  induction fuel with
  | zero => intro st r h; simp [loop] at h
  | succ fuel ih =>
      intro st r h
      rw [loop] at h
      rcases hit : iterOnce n st with r' | st''
      · rw [hit] at h
        injection h with h'
        exact ⟨st, Relation.ReflTransGen.refl, by rw [hit, h']⟩
      · rw [hit] at h
        obtain ⟨st₃, hr, hex⟩ := ih st'' r h
        exact ⟨st₃, Relation.ReflTransGen.head hit hr, hex⟩

/-- Extra fuel never changes a loop result. -/
theorem loop_mono (n : Nat) : ∀ fuel (st : BidirState) r,
    loop n fuel st = some r → loop n (fuel + 1) st = some r := by
  intro fuel
  induction fuel with
  | zero => intro st r h; simp [loop] at h
  | succ fuel ih =>
      intro st r h
      rw [loop] at h
      rcases hit : iterOnce n st with r' | st''
      · rw [hit] at h
        rw [loop, hit]
        exact h
      · rw [hit] at h
        rw [loop, hit]
        exact ih st'' r h

/-- Monotone version of the previous lemma. -/
theorem loop_mono_le (n : Nat) (fuel fuel' : Nat) (st : BidirState) (r)
    (h : loop n fuel st = some r) (hle : fuel ≤ fuel') : loop n fuel' st = some r := by
  induction fuel' with
  | zero =>
      have : fuel = 0 := by omega
      subst this
      exact h
  | succ fuel' ih =>
      rcases Nat.lt_or_ge fuel (fuel' + 1) with hlt | hge
      · exact loop_mono n fuel' st r (ih (by omega))
      · have : fuel = fuel' + 1 := by omega
        subst this
        exact h

/-- With fuel above the termination measure, the loop reaches a normal
exit: the engine terminates on every valid input. -/
theorem loop_total (n : Nat) (start : Key) :
    ∀ m (st : BidirState), measureSt n st ≤ m → BidirInv n start st →
      ∃ r, loop n (m + 1) st = some r := by
  intro m
  induction m using Nat.strong_induction_on with
  | _ m ih =>
    intro st hm inv
    rw [loop]
    rcases hit : iterOnce n st with r | st'
    · exact ⟨r, rfl⟩
    · obtain ⟨inv', hlt⟩ := iterOnce_inr n start st st' inv hit
      rcases Nat.eq_zero_or_pos m with rfl | hmpos
      · omega
      · obtain ⟨r, hr⟩ := ih (m - 1) (by omega) st' (by omega) inv'
        exact ⟨r, loop_mono_le n ((m - 1) + 1) m st' r hr (by omega)⟩

/-! ## Meeting states and move reversal -/

/-- Inversion of a directional block that declares a meeting state. -/
theorem stepDir_meeting (n : Nat) (d other : Dir) (nodes : Nat) (m : Key)
    (d' : Dir) (nodes' : Nat)
    (h : stepDir n d other nodes = (some m, d', nodes')) :
    m ∈ other.expl ∧ nodes' = nodes ∧ d'.g = d.g ∧ m ∈ d'.expl ∧
    ∃ f rest, heapPop d.openq = some ((f, m), rest) ∧ (f, m) ∈ d.openq := by
  rcases hpop : heapPop d.openq with _ | ⟨⟨f, cur⟩, rest⟩
  · rw [stepDir, hpop] at h
    simp at h
  · rw [stepDir, hpop] at h
    simp only at h
    by_cases hexp : cur ∈ other.expl
    · rw [if_pos hexp] at h
      injection h with h1 h23
      injection h23 with h2 h3
      injection h1 with h1
      subst h1
      subst h3
      subst h2
      refine ⟨hexp, rfl, rfl, List.mem_cons_self _ _, f, rest, rfl,
        (heapPop_mem hpop).1⟩
    · rw [if_neg hexp] at h
      exact absurd (congrArg Prod.fst h) (by simp)

/-- Swapping the same two cells twice restores the state. -/
theorem swap_back (s : Key) (i j : Nat) (hi : i < s.length) (hj : j < s.length)
    (hij : j ≠ i) :
    (((s.set i (s.getD j 0)).set j (s.getD i 0)).set j
        (((s.set i (s.getD j 0)).set j (s.getD i 0)).getD i 0)).set i
      (((s.set i (s.getD j 0)).set j (s.getD i 0)).getD j 0) = s := by
  rw [getD_swap_fst s i j (s.getD i 0) (s.getD j 0) hi hij,
    getD_swap_snd s i j (s.getD i 0) (s.getD j 0) hj]
  apply List.ext_getElem (by simp)
  intro k hk1 hk2
  by_cases hki : k = i
  · subst hki
    rw [List.getElem_set_self (h := hk1), List.getD_eq_getElem s 0 hk2]
  · rw [List.getElem_set_ne (fun h => hki h.symm)]
    by_cases hkj : k = j
    · subst hkj
      rw [List.getElem_set_self (h := by simpa using hj),
        List.getD_eq_getElem s 0 hk2]
    · rw [List.getElem_set_ne (fun h => hkj h.symm),
        List.getElem_set_ne (fun h => hkj h.symm),
        List.getElem_set_ne (fun h => hki h.symm)]

/-- Every legal move has a legal inverse move from the resulting state. -/
theorem do_action_reverse (n : Nat) (s : Key) (a : Action)
    (hs : s.Perm (List.range (n * n))) (ha : a ∈ available_actions n s) :
    ∃ a', a' ∈ available_actions n (do_action n s a) ∧
      do_action n (do_action n s a) a' = s := by
  obtain ⟨hp1, hjlt, hji⟩ := available_action_bounds n s a hs ha
  have hn : 0 < n := by
    rcases Nat.eq_zero_or_pos n with rfl | hn
    · simp at hjlt
    · exact hn
  have hN : 0 < n * n := Nat.mul_pos hn hn
  have hlen : s.length = n * n := by simpa using hs.length_eq
  have hmem0 : (0 : Nat) ∈ s := hs.mem_iff.mpr (List.mem_range.mpr hN)
  have hidx : blankIdx s < s.length := List.indexOf_lt_length.mpr hmem0
  have hidxN : blankIdx s < n * n := hlen ▸ hidx
  have hs0 : s[blankIdx s] = 0 := List.getElem_indexOf hidx
  have hjs : a.pos2.1 * n + a.pos2.2 < s.length := hlen ▸ hjlt
  have hvi : s.getD (blankIdx s) 0 = 0 := by
    rw [List.getD_eq_getElem s 0 hidx]; exact hs0
  have hda : do_action n s a =
      (s.set (blankIdx s) (s.getD (a.pos2.1 * n + a.pos2.2) 0)).set
        (a.pos2.1 * n + a.pos2.2) (s.getD (blankIdx s) 0) := by
    rw [do_action, hp1]
  have htp : (do_action n s a).Perm (List.range (n * n)) := do_action_perm n s a hs ha
  have htlen : (do_action n s a).length = s.length := by
    rw [hda]; simp
  have htnd : (do_action n s a).Nodup := htp.nodup_iff.mpr (List.nodup_range _)
  have hjt : a.pos2.1 * n + a.pos2.2 < (do_action n s a).length := htlen ▸ hjs
  have htj : (do_action n s a).getD (a.pos2.1 * n + a.pos2.2) 0 = 0 := by
    rw [hda, getD_swap_snd s _ _ _ _ hjs, hvi]
  have hmem0t : (0 : Nat) ∈ do_action n s a := htp.mem_iff.mpr (List.mem_range.mpr hN)
  have hbt : blankIdx (do_action n s a) = a.pos2.1 * n + a.pos2.2 := by
    have h1 : blankIdx (do_action n s a) < (do_action n s a).length :=
      List.indexOf_lt_length.mpr hmem0t
    have h2 : (do_action n s a)[blankIdx (do_action n s a)] = 0 :=
      List.getElem_indexOf h1
    have h3 : (do_action n s a)[a.pos2.1 * n + a.pos2.2] = 0 := by
      rw [← List.getD_eq_getElem _ 0 hjt]; exact htj
    exact htnd.getElem_inj_iff.mp (h2.trans h3.symm)
  have hback : ∀ a' : Action, a'.pos1.1 * n + a'.pos1.2 = a.pos2.1 * n + a.pos2.2 →
      a'.pos2.1 * n + a'.pos2.2 = blankIdx s →
      do_action n (do_action n s a) a' = s := by
    intro a' h1 h2
    rw [do_action, h1, h2, hda]
    exact swap_back s (blankIdx s) (a.pos2.1 * n + a.pos2.2) hidx hjs hji
  have hdm : n * (blankIdx s / n) + blankIdx s % n = blankIdx s := Nat.div_add_mod _ n
  have hxy : (blankIdx s / n) * n + blankIdx s % n = blankIdx s := by
    rw [Nat.mul_comm]; exact hdm
  have hy : blankIdx s % n < n := Nat.mod_lt _ hn
  have hxn : blankIdx s / n < n := (Nat.div_lt_iff_lt_mul hn).mpr hidxN
  rw [mem_available_actions] at ha
  rcases ha with ⟨hx, rfl⟩ | ⟨hx, rfl⟩ | ⟨hy0, rfl⟩ | ⟨hy1, rfl⟩
  · -- a moved the blank up; reverse by moving it down
    refine ⟨Action.mk (blankIdx s / n - 1, blankIdx s % n)
      (blankIdx s / n - 1 + 1, blankIdx s % n), ?_, ?_⟩
    · rw [mem_available_actions, hbt]
      have hdiv : ((blankIdx s / n - 1) * n + blankIdx s % n) / n = blankIdx s / n - 1 :=
        row_major_div _ _ n hn hy
      have hmod : ((blankIdx s / n - 1) * n + blankIdx s % n) % n = blankIdx s % n :=
        row_major_mod _ _ n hy
      refine Or.inr (Or.inl ⟨?_, ?_⟩)
      · show ((blankIdx s / n - 1) * n + blankIdx s % n) / n < n - 1
        rw [hdiv]; omega
      · rw [hdiv, hmod]
    · refine hback _ rfl ?_
      show (blankIdx s / n - 1 + 1) * n + blankIdx s % n = blankIdx s
      rw [show blankIdx s / n - 1 + 1 = blankIdx s / n from Nat.succ_pred_eq_of_pos hx]
      exact hxy
  · -- a moved the blank down; reverse by moving it up
    refine ⟨Action.mk (blankIdx s / n + 1, blankIdx s % n)
      (blankIdx s / n + 1 - 1, blankIdx s % n), ?_, ?_⟩
    · rw [mem_available_actions, hbt]
      have hdiv : ((blankIdx s / n + 1) * n + blankIdx s % n) / n = blankIdx s / n + 1 :=
        row_major_div _ _ n hn hy
      have hmod : ((blankIdx s / n + 1) * n + blankIdx s % n) % n = blankIdx s % n :=
        row_major_mod _ _ n hy
      refine Or.inl ⟨?_, ?_⟩
      · show 0 < ((blankIdx s / n + 1) * n + blankIdx s % n) / n
        rw [hdiv]
        exact Nat.succ_pos _
      · rw [hdiv, hmod]
    · refine hback _ rfl ?_
      show (blankIdx s / n + 1 - 1) * n + blankIdx s % n = blankIdx s
      exact hxy
  · -- a moved the blank left; reverse by moving it right
    refine ⟨Action.mk (blankIdx s / n, blankIdx s % n - 1)
      (blankIdx s / n, blankIdx s % n - 1 + 1), ?_, ?_⟩
    · rw [mem_available_actions, hbt]
      have hy' : blankIdx s % n - 1 < n := by omega
      have hdiv : ((blankIdx s / n) * n + (blankIdx s % n - 1)) / n = blankIdx s / n :=
        row_major_div _ _ n hn hy'
      have hmod : ((blankIdx s / n) * n + (blankIdx s % n - 1)) % n = blankIdx s % n - 1 :=
        row_major_mod _ _ n hy'
      refine Or.inr (Or.inr (Or.inr ⟨?_, ?_⟩))
      · show ((blankIdx s / n) * n + (blankIdx s % n - 1)) % n < n - 1
        rw [hmod]; omega
      · rw [hdiv, hmod]
    · refine hback _ rfl ?_
      show (blankIdx s / n) * n + (blankIdx s % n - 1 + 1) = blankIdx s
      rw [show blankIdx s % n - 1 + 1 = blankIdx s % n from Nat.succ_pred_eq_of_pos hy0]
      exact hxy
  · -- a moved the blank right; reverse by moving it left
    refine ⟨Action.mk (blankIdx s / n, blankIdx s % n + 1)
      (blankIdx s / n, blankIdx s % n + 1 - 1), ?_, ?_⟩
    · rw [mem_available_actions, hbt]
      have hy' : blankIdx s % n + 1 < n := by omega
      have hdiv : ((blankIdx s / n) * n + (blankIdx s % n + 1)) / n = blankIdx s / n :=
        row_major_div _ _ n hn hy'
      have hmod : ((blankIdx s / n) * n + (blankIdx s % n + 1)) % n = blankIdx s % n + 1 :=
        row_major_mod _ _ n hy'
      refine Or.inr (Or.inr (Or.inl ⟨?_, ?_⟩))
      · show 0 < ((blankIdx s / n) * n + (blankIdx s % n + 1)) % n
        rw [hmod]; omega
      · rw [hdiv, hmod]
    · refine hback _ rfl ?_
      show (blankIdx s / n) * n + (blankIdx s % n + 1 - 1) = blankIdx s
      exact hxy

/-- A chain of predecessor links, walked towards the root, is also a chain
of forward moves: every link can be reversed. -/
theorem chain_rev_moves (n : Nat) (l : List Key)
    (hvalid : ∀ e ∈ l, e.Perm (List.range (n * n)))
    (hchain : List.Chain' (fun a b => ∃ x ∈ available_actions n b, a = do_action n b x) l) :
    List.Chain' (fun u v => ∃ x ∈ available_actions n u, v = do_action n u x) l := by
  induction l with
  | nil => exact List.chain'_nil
  | cons a l ih =>
      rw [List.chain'_cons'] at hchain ⊢
      refine ⟨?_, ih (fun e he => hvalid e (List.mem_cons_of_mem a he)) hchain.2⟩
      intro b hb
      obtain ⟨x, hx, hax⟩ := hchain.1 b hb
      have hbl : b ∈ l := by
        cases l with
        | nil => simp at hb
        | cons c t =>
            have hbc : c = b := by simpa using hb
            subst hbc
            exact List.mem_cons_self _ _
      have hbp : b.Perm (List.range (n * n)) := hvalid b (List.mem_cons_of_mem a hbl)
      obtain ⟨x', hx', hxx⟩ := do_action_reverse n b x hbp hx
      refine ⟨x', ?_, ?_⟩
      · rw [hax]; exact hx'
      · rw [hax]; exact hxx.symm

/-- The reconstructed path of any meeting state recorded in both directions
starts at the start state, ends at the goal state, and follows legal moves. -/
theorem reconstruct_valid (n : Nat) (start : Key) (stf : BidirState) (meeting : Key)
    (invF : DirInv n start stf.fwd) (invB : DirInv n (goal_state n) stf.bwd)
    (hmF : (dictGet stf.fwd.g meeting).isSome)
    (hmB : (dictGet stf.bwd.g meeting).isSome) :
    (reconstructPath stf meeting).head? = some start ∧
    (reconstructPath stf meeting).getLast? = some (goal_state n) ∧
    List.Chain' (fun u v => ∃ x ∈ available_actions n u, v = do_action n u x)
      (reconstructPath stf meeting) := by
  obtain ⟨vF, hvF⟩ := Option.isSome_iff_exists.mp hmF
  have hfuelF : vF + 1 ≤ stf.fwd.came.length + 1 := by
    have := g_lt_came_length n start stf.fwd invF meeting vF hvF
    omega
  obtain ⟨hFne, hFhead, hFlast, hFchain, hFmem⟩ :=
    walkChain_spec n start stf.fwd invF vF meeting (stf.fwd.came.length + 1) hvF hfuelF
  have hrevne : (walkChain stf.fwd.came (stf.fwd.came.length + 1) (some meeting)).reverse ≠
      [] := by simpa using hFne
  have hrevhead : (walkChain stf.fwd.came (stf.fwd.came.length + 1)
      (some meeting)).reverse.head? = some start := by
    rw [List.head?_reverse]; exact hFlast
  have hrevlast : (walkChain stf.fwd.came (stf.fwd.came.length + 1)
      (some meeting)).reverse.getLast? = some meeting := by
    rw [List.getLast?_reverse]; exact hFhead
  have hrevchain : List.Chain' (fun u v => ∃ x ∈ available_actions n u, v = do_action n u x)
      (walkChain stf.fwd.came (stf.fwd.came.length + 1) (some meeting)).reverse := by
    rw [List.chain'_reverse]
    exact hFchain
  rcases hc : cameGet stf.bwd.came meeting with _ | p
  · obtain ⟨o, ho⟩ := Option.isSome_iff_exists.mp ((invB.dom_eq meeting).mp hmB)
    have ho' : o = none := by
      unfold cameGet at hc
      rw [ho] at hc
      simpa using hc
    have hmg : meeting = goal_state n := invB.came_none meeting (by rw [ho, ho'])
    have hpath : reconstructPath stf meeting =
        (walkChain stf.fwd.came (stf.fwd.came.length + 1) (some meeting)).reverse := by
      unfold reconstructPath
      rw [hc, walkChain_none, List.append_nil]
    rw [hpath]
    exact ⟨hrevhead, by rw [hrevlast, hmg], hrevchain⟩
  · have hcame : dictGet stf.bwd.came meeting = some (some p) := by
      obtain ⟨o, ho⟩ := Option.isSome_iff_exists.mp ((invB.dom_eq meeting).mp hmB)
      unfold cameGet at hc
      rw [ho] at hc
      have : o = some p := by simpa using hc
      rw [ho, this]
    obtain ⟨vB, hvB⟩ := Option.isSome_iff_exists.mp hmB
    have hmroot : meeting ≠ goal_state n := by
      intro hmg
      rw [hmg, invB.came_root] at hcame
      simp at hcame
    obtain ⟨p', w, x, hcame', hgp, hwv, hxmem, hkp⟩ := invB.chain meeting vB hvB hmroot
    have hpp : p' = p := by
      rw [hcame] at hcame'
      simpa using hcame'.symm
    rw [hpp] at hgp hxmem hkp
    have hfuelB : w + 1 ≤ stf.bwd.came.length + 1 := by
      have := g_lt_came_length n (goal_state n) stf.bwd invB p w hgp
      omega
    obtain ⟨hBne, hBhead, hBlast, hBchain, hBmem⟩ :=
      walkChain_spec n (goal_state n) stf.bwd invB w p (stf.bwd.came.length + 1) hgp hfuelB
    have hpath : reconstructPath stf meeting =
        (walkChain stf.fwd.came (stf.fwd.came.length + 1) (some meeting)).reverse ++
          walkChain stf.bwd.came (stf.bwd.came.length + 1) (some p) := by
      unfold reconstructPath
      rw [hc]
    rw [hpath]
    have hvalidB : ∀ e ∈ walkChain stf.bwd.came (stf.bwd.came.length + 1) (some p),
        e.Perm (List.range (n * n)) := by
      intro e he
      obtain ⟨ve, hve⟩ := Option.isSome_iff_exists.mp (hBmem e he)
      exact invB.keys_perm e ve hve
    have hBchainF := chain_rev_moves n _ hvalidB hBchain
    refine ⟨?_, ?_, ?_⟩
    · cases hq : (walkChain stf.fwd.came (stf.fwd.came.length + 1) (some meeting)).reverse with
      | nil => exact absurd hq hrevne
      | cons q t =>
          rw [hq] at hrevhead
          simpa using hrevhead
    · rw [List.getLast?_append_of_ne_nil _ hBne]
      exact hBlast
    · refine List.Chain'.append hrevchain hBchainF ?_
      intro u hu v hv
      rw [hrevlast] at hu
      rw [hBhead] at hv
      have hu' : meeting = u := by simpa using hu
      have hv' : p = v := by simpa using hv
      rw [← hu', ← hv']
      have hpperm : p.Perm (List.range (n * n)) := invB.keys_perm p w hgp
      obtain ⟨x', hx', hxx⟩ := do_action_reverse n p x hpperm hxmem
      refine ⟨x', ?_, ?_⟩
      · rw [hkp]; exact hx'
      · rw [hkp]; exact hxx.symm

/-- A loop iteration that declares a meeting state leaves both invariants
intact, and the meeting state is recorded in both gScore maps. -/
theorem iterOnce_meeting (n : Nat) (start : Key) (st' stf : BidirState) (meeting : Key)
    (inv : BidirInv n start st')
    (h : iterOnce n st' = Sum.inl (some meeting, stf)) :
    DirInv n start stf.fwd ∧ DirInv n (goal_state n) stf.bwd ∧
    (dictGet stf.fwd.g meeting).isSome ∧ (dictGet stf.bwd.g meeting).isSome := by
  unfold iterOnce at h
  by_cases hg : st'.fwd.openq = [] ∨ st'.bwd.openq = []
  · rw [if_pos hg] at h
    simp at h
  · rw [if_neg hg] at h
    rcases hf : stepDir n st'.fwd st'.bwd st'.nodes with ⟨mf, df, nf⟩
    rw [hf] at h
    have hfp := stepDir_preserves n start st'.fwd st'.bwd st'.nodes inv.1
    rw [hf] at hfp
    cases mf with
    | some m =>
        simp only at h
        injection h with h'
        injection h' with h1 h2
        injection h1 with h1
        subst h1
        subst h2
        obtain ⟨hexp, hnn, hgg, hmexpl, f, rest, hpop, hqmem⟩ :=
          stepDir_meeting n st'.fwd st'.bwd st'.nodes m df nf hf
        refine ⟨hfp.1, inv.2, ?_, ?_⟩
        · show (dictGet df.g m).isSome
          rw [hgg]
          exact inv.1.openq_g (f, m) hqmem
        · show (dictGet st'.bwd.g m).isSome
          exact inv.2.expl_g m hexp
    | none =>
        simp only at h
        have hred : stepDir n { st' with fwd := df, nodes := nf }.bwd
            { st' with fwd := df, nodes := nf }.fwd
            { st' with fwd := df, nodes := nf }.nodes =
            stepDir n st'.bwd df nf := rfl
        rw [hred] at h
        rcases hb : stepDir n st'.bwd df nf with ⟨mb, db, nb2⟩
        rw [hb] at h
        have hbp := stepDir_preserves n (goal_state n) st'.bwd df nf inv.2
        rw [hb] at hbp
        cases mb with
        | none => simp at h
        | some m =>
            simp only at h
            injection h with h'
            injection h' with h1 h2
            injection h1 with h1
            subst h1
            subst h2
            obtain ⟨hexp, hnn, hgg, hmexpl, f, rest, hpop, hqmem⟩ :=
              stepDir_meeting n st'.bwd df nf m db nb2 hb
            refine ⟨hfp.1, hbp.1, ?_, ?_⟩
            · show (dictGet df.g m).isSome
              exact hfp.1.expl_g m hexp
            · show (dictGet db.g m).isSome
              rw [hgg]
              exact inv.2.openq_g (f, m) hqmem

/-! ## Claim C4 -/

/-- Claim C4: every successful search returns a path whose first element is
the supplied start state, whose last element is the goal state, and whose
consecutive states are one legal move apart — so applying the path's moves
in order to the start state reproduces the goal state. -/
theorem c4_path_reconstruction (n : Nat) (start : Key) (fuel : Nat) (path : List Key)
    (nodes : Nat) (hn : 0 < n) (hs : start.Perm (List.range (n * n)))
    (h : bidirectional_a_star n start fuel = some (some path, nodes)) :
    path.head? = some start ∧ path.getLast? = some (goal_state n) ∧
    List.Chain' (fun u v => ∃ x ∈ available_actions n u, v = do_action n u x) path := by
  unfold bidirectional_a_star at h
  rcases hloop : loop n fuel (initState n start) with _ | ⟨mo, stf⟩
  · rw [hloop] at h
    simp at h
  · rw [hloop] at h
    cases mo with
    | none => simp at h
    | some meeting =>
        simp only at h
        injection h with h'
        injection h' with h1 h2
        injection h1 with h1
        obtain ⟨st', hreach, hexit⟩ := loop_eq_inl n fuel _ _ hloop
        have inv' : BidirInv n start st' :=
          reaches_inv n start _ st' (initState_inv n start hn hs) hreach
        obtain ⟨invF, invB, hmF, hmB⟩ :=
          iterOnce_meeting n start st' stf meeting inv' hexit
        rw [← h1]
        exact reconstruct_valid n start stf meeting invF invB hmF hmB

/-- Claim C4 witness: a concrete successful 2×2 search whose returned path
runs from the start state to the goal by legal moves. -/
theorem c4_path_reconstruction_witness :
    ([[3, 1, 2, 0], [3, 1, 0, 2], [0, 1, 3, 2], [1, 0, 3, 2],
        [1, 2, 3, 0]] : List Key).head? = some [3, 1, 2, 0] ∧
    ([[3, 1, 2, 0], [3, 1, 0, 2], [0, 1, 3, 2], [1, 0, 3, 2],
        [1, 2, 3, 0]] : List Key).getLast? = some (goal_state 2) ∧
    List.Chain' (fun u v => ∃ x ∈ available_actions 2 u, v = do_action 2 u x)
      [[3, 1, 2, 0], [3, 1, 0, 2], [0, 1, 3, 2], [1, 0, 3, 2], [1, 2, 3, 0]] :=
  c4_path_reconstruction 2 [3, 1, 2, 0] 30
    [[3, 1, 2, 0], [3, 1, 0, 2], [0, 1, 3, 2], [1, 0, 3, 2], [1, 2, 3, 0]] 8
    (by decide) (by decide) (by decide)

/-! ## Claim C10 -/

/-- Claim C10: at every engine state reachable from a valid start, every
frontier entry's state is a key of that direction's gScore map (so the
`g_score[current]` lookups during expansion never miss), the gScore and
predecessor maps have the same keys (every relaxed state simultaneously
received a predecessor; the roots' predecessors are `none`), and the
predecessor-chain walk used by path reconstruction ends at the respective
root for every recorded state. -/
theorem c10_bookkeeping_safety (n : Nat) (start : Key) (st : BidirState)
    (hn : 0 < n) (hs : start.Perm (List.range (n * n)))
    (hr : Reaches n (initState n start) st) :
    (∀ e ∈ st.fwd.openq, (dictGet st.fwd.g e.2).isSome) ∧
    (∀ e ∈ st.bwd.openq, (dictGet st.bwd.g e.2).isSome) ∧
    (∀ k, (dictGet st.fwd.g k).isSome ↔ (dictGet st.fwd.came k).isSome) ∧
    (∀ k, (dictGet st.bwd.g k).isSome ↔ (dictGet st.bwd.came k).isSome) ∧
    dictGet st.fwd.came start = some none ∧
    dictGet st.bwd.came (goal_state n) = some none ∧
    (∀ k, (dictGet st.fwd.g k).isSome →
      (walkChain st.fwd.came (st.fwd.came.length + 1) (some k)).getLast? = some start) ∧
    (∀ k, (dictGet st.bwd.g k).isSome →
      (walkChain st.bwd.came (st.bwd.came.length + 1) (some k)).getLast? =
        some (goal_state n)) := by
  obtain ⟨invF, invB⟩ := reaches_inv n start _ st (initState_inv n start hn hs) hr
  refine ⟨invF.openq_g, invB.openq_g, invF.dom_eq, invB.dom_eq,
    invF.came_root, invB.came_root, ?_, ?_⟩
  · intro k hk
    obtain ⟨v, hv⟩ := Option.isSome_iff_exists.mp hk
    have hfuel : v + 1 ≤ st.fwd.came.length + 1 := by
      have := g_lt_came_length n start st.fwd invF k v hv
      omega
    exact (walkChain_spec n start st.fwd invF v k (st.fwd.came.length + 1) hv hfuel).2.2.1
  · intro k hk
    obtain ⟨v, hv⟩ := Option.isSome_iff_exists.mp hk
    have hfuel : v + 1 ≤ st.bwd.came.length + 1 := by
      have := g_lt_came_length n (goal_state n) st.bwd invB k v hv
      omega
    exact (walkChain_spec n (goal_state n) st.bwd invB v k
      (st.bwd.came.length + 1) hv hfuel).2.2.1

/-- Claim C10 witness: the initial engine state of a concrete 2×2 search is
reachable (in zero iterations) and satisfies all the bookkeeping
guarantees. -/
theorem c10_bookkeeping_safety_witness :
    (∀ e ∈ (initState 2 [3, 1, 2, 0]).fwd.openq,
      (dictGet (initState 2 [3, 1, 2, 0]).fwd.g e.2).isSome) ∧
    (∀ e ∈ (initState 2 [3, 1, 2, 0]).bwd.openq,
      (dictGet (initState 2 [3, 1, 2, 0]).bwd.g e.2).isSome) ∧
    (∀ k, (dictGet (initState 2 [3, 1, 2, 0]).fwd.g k).isSome ↔
      (dictGet (initState 2 [3, 1, 2, 0]).fwd.came k).isSome) ∧
    (∀ k, (dictGet (initState 2 [3, 1, 2, 0]).bwd.g k).isSome ↔
      (dictGet (initState 2 [3, 1, 2, 0]).bwd.came k).isSome) ∧
    dictGet (initState 2 [3, 1, 2, 0]).fwd.came [3, 1, 2, 0] = some none ∧
    dictGet (initState 2 [3, 1, 2, 0]).bwd.came (goal_state 2) = some none ∧
    (∀ k, (dictGet (initState 2 [3, 1, 2, 0]).fwd.g k).isSome →
      (walkChain (initState 2 [3, 1, 2, 0]).fwd.came
        ((initState 2 [3, 1, 2, 0]).fwd.came.length + 1) (some k)).getLast? =
        some [3, 1, 2, 0]) ∧
    (∀ k, (dictGet (initState 2 [3, 1, 2, 0]).bwd.g k).isSome →
      (walkChain (initState 2 [3, 1, 2, 0]).bwd.came
        ((initState 2 [3, 1, 2, 0]).bwd.came.length + 1) (some k)).getLast? =
        some (goal_state 2)) :=
  c10_bookkeeping_safety 2 [3, 1, 2, 0] (initState 2 [3, 1, 2, 0])
    (by decide) (by decide) Relation.ReflTransGen.refl

/-! ## Claim C5 -/

/-- Claim C5: the engine terminates on every valid start state, solvable or
not.  First conjunct: some finite fuel makes the fuel-indexed loop return a
definite result (the runs of the source's unbounded `while` loop are the
fuel-indexed runs that exit by themselves).  Second conjunct: when a
frontier empties without a meeting, the loop exits normally with no meeting
state, which `bidirectional_a_star` reports as `(none, nodesEvaluated)`.
Third conjunct: a state already recorded with a gScore no larger than the
tentative one is never re-pushed — each state re-enters a frontier only
with a strictly smaller gScore, the fact that bounds the search. -/
theorem c5_termination (n : Nat) (start : Key) (hn : 0 < n)
    (hs : start.Perm (List.range (n * n))) :
    (∃ fuel r, bidirectional_a_star n start fuel = some r) ∧
    (∀ (st : BidirState) fuel, st.fwd.openq = [] ∨ st.bwd.openq = [] →
      loop n (fuel + 1) st = some (none, st) ∧
      (∀ nodes, bidirectional_a_star n start fuel = some (none, nodes) →
        ∃ stq, loop n fuel (initState n start) = some (none, stq) ∧ nodes = stq.nodes)) ∧
    (∀ (current : Key) (d : Dir) (nodes : Nat) (a : Action) (old : Nat),
      dictGet d.g (do_action n current a) = some old →
      ¬ (dictGet d.g current).getD 0 + 1 < old →
      relaxStep n current (d, nodes) a = (d, nodes)) := by
  refine ⟨?_, ?_, ?_⟩
  · obtain ⟨r, hr⟩ := loop_total n start (measureSt n (initState n start))
      (initState n start) (le_refl _) (initState_inv n start hn hs)
    refine ⟨measureSt n (initState n start) + 1, ?_⟩
    unfold bidirectional_a_star
    rw [hr]
    rcases r with ⟨mo, stf⟩
    cases mo <;> exact ⟨_, rfl⟩
  · intro st fuel hempty
    constructor
    · rw [loop]
      unfold iterOnce
      rw [if_pos hempty]
    · intro nodes hb
      unfold bidirectional_a_star at hb
      rcases hloop : loop n fuel (initState n start) with _ | ⟨mo, stq⟩
      · rw [hloop] at hb
        simp at hb
      · rw [hloop] at hb
        cases mo with
        | none =>
            simp only at hb
            injection hb with hb'
            injection hb' with hb1 hb2
            exact ⟨stq, rfl, hb2.symm⟩
        | some m =>
            simp only at hb
            injection hb with hb'
            injection hb' with hb1 hb2
            simp at hb1
  · intro current d nodes a old hold hge
    exact relaxStep_of_skip n current d nodes a old hold hge

/-- Claim C5 witness: the unsolvable 2×2 start `[2,1,3,0]` is a valid
permutation, and the engine still terminates on it. -/
theorem c5_termination_witness :
    (∃ fuel r, bidirectional_a_star 2 [2, 1, 3, 0] fuel = some r) ∧
    (∀ (st : BidirState) fuel, st.fwd.openq = [] ∨ st.bwd.openq = [] →
      loop 2 (fuel + 1) st = some (none, st) ∧
      (∀ nodes, bidirectional_a_star 2 [2, 1, 3, 0] fuel = some (none, nodes) →
        ∃ stq, loop 2 fuel (initState 2 [2, 1, 3, 0]) = some (none, stq) ∧
          nodes = stq.nodes)) ∧
    (∀ (current : Key) (d : Dir) (nodes : Nat) (a : Action) (old : Nat),
      dictGet d.g (do_action 2 current a) = some old →
      ¬ (dictGet d.g current).getD 0 + 1 < old →
      relaxStep 2 current (d, nodes) a = (d, nodes)) :=
  c5_termination 2 [2, 1, 3, 0] (by decide) (by decide)

/-! ## Claim C8 -/

/-- The goal state's blank sits in the last cell. -/
theorem goal_state_indexOf (n : Nat) (hn : 0 < n) :
    (goal_state n).indexOf 0 = n * n - 1 := by
  have hN : 0 < n * n := Nat.mul_pos hn hn
  have hlen : (goal_state n).length = n * n := goal_state_length n hn
  have hperm := goal_state_perm n hn
  have hnd : (goal_state n).Nodup := hperm.nodup_iff.mpr (List.nodup_range _)
  have hmem : (0 : Nat) ∈ goal_state n := hperm.mem_iff.mpr (List.mem_range.mpr hN)
  have h1 : (goal_state n).indexOf 0 < (goal_state n).length :=
    List.indexOf_lt_length.mpr hmem
  have h2 : (goal_state n)[(goal_state n).indexOf 0] = 0 := List.getElem_indexOf h1
  have hlast : n * n - 1 < (goal_state n).length := by omega
  have h3 : (goal_state n)[n * n - 1] = 0 := by
    rw [← List.getD_eq_getElem _ 0 hlast, goal_state_getD n _ hn (by omega),
      if_pos rfl]
  exact hnd.getElem_inj_iff.mp (h2.trans h3.symm)

/-- The last row-major index splits into the last row and column. -/
theorem last_cell_split (n : Nat) (hn : 0 < n) :
    (n - 1) * n + (n - 1) = n * n - 1 := by
  have h1 : (n - 1) * n + n = n * n := by
    have h2 : n - 1 + 1 = n := by omega
    calc (n - 1) * n + n = (n - 1 + 1) * n := by ring
    _ = n * n := by rw [h2]
  omega

/-- The goal state offers exactly the moves up and left. -/
theorem available_actions_goal (n : Nat) (hn : 2 ≤ n) :
    available_actions n (goal_state n) =
      [Action.mk (n - 1, n - 1) (n - 1 - 1, n - 1),
       Action.mk (n - 1, n - 1) (n - 1, n - 1 - 1)] := by
  have hn1 : 0 < n := by omega
  have hsplit := last_cell_split n hn1
  have hx : (n * n - 1) / n = n - 1 := by
    rw [← hsplit, row_major_div _ _ n hn1 (by omega)]
  have hy : (n * n - 1) % n = n - 1 := by
    rw [← hsplit, row_major_mod _ _ n (by omega)]
  simp only [available_actions, goal_state_indexOf n hn1, hx, hy]
  rw [if_pos (by omega : n - 1 > 0), if_neg (lt_irrefl (n - 1)),
    if_pos (by omega : n - 1 > 0), if_neg (lt_irrefl (n - 1))]
  rfl

/-- A singleton frontier pops its only entry. -/
theorem heapPop_singleton (e : Nat × Key) : heapPop [e] = some (e, []) := by
  simp [heapPop]

/-- Unfolding of a directional block under a known pop. -/
theorem stepDir_pop (n : Nat) (d other : Dir) (nodes f : Nat) (k : Key)
    (rest : List (Nat × Key)) (hpop : heapPop d.openq = some ((f, k), rest)) :
    stepDir n d other nodes =
      if k ∈ other.expl
      then (some k, { d with openq := rest, expl := k :: d.expl }, nodes)
      else (none, (relaxAll n k { d with openq := rest, expl := k :: d.expl } nodes).1,
            (relaxAll n k { d with openq := rest, expl := k :: d.expl } nodes).2) := by
  simp only [stepDir, hpop]

/-- The fresh-relaxation equation with the tentative gScore evaluated. -/
theorem relaxStep_fresh_eq (n : Nat) (current : Key) (d : Dir) (nodes : Nat)
    (a : Action) (tg : Nat)
    (h : dictGet d.g (do_action n current a) = none)
    (htg : (dictGet d.g current).getD 0 + 1 = tg) :
    relaxStep n current (d, nodes) a =
      ({ d with
          g := (do_action n current a, tg) :: d.g
          openq := d.openq ++ [(tg + manhattan_distance n (do_action n current a),
            do_action n current a)]
          came := (do_action n current a, some current) :: d.came }, nodes + 1) := by
  rw [relaxStep_of_fresh n current d nodes a h, htg]

/-- Claim C8: started on the goal state itself, the engine meets at the
goal in the very first iteration and returns the single-state path
`[goal]` with two relaxations counted, so the reported quality
(path length minus one) is zero. -/
theorem c8_goal_start_zero_quality (n fuel : Nat) (hn : 2 ≤ n) (hf : 1 ≤ fuel) :
    bidirectional_a_star n (goal_state n) fuel = some (some [goal_state n], 2) ∧
    ([goal_state n] : List Key).length - 1 = 0 := by
  obtain ⟨f, rfl⟩ : ∃ f, fuel = f + 1 := ⟨fuel - 1, by omega⟩
  have hn1 : 0 < n := by omega
  have hgp := goal_state_perm n hn1
  have hA1mem : Action.mk (n - 1, n - 1) (n - 1 - 1, n - 1) ∈
      available_actions n (goal_state n) := by
    rw [available_actions_goal n hn]
    exact List.mem_cons_self _ _
  have hA2mem : Action.mk (n - 1, n - 1) (n - 1, n - 1 - 1) ∈
      available_actions n (goal_state n) := by
    rw [available_actions_goal n hn]
    exact List.mem_cons_of_mem _ (List.mem_cons_self _ _)
  have hne1 : gnbU n ≠ goal_state n :=
    do_action_ne n (goal_state n) (Action.mk (n - 1, n - 1) (n - 1 - 1, n - 1)) hgp hA1mem
  have hne2 : gnbL n ≠ goal_state n :=
    do_action_ne n (goal_state n) (Action.mk (n - 1, n - 1) (n - 1, n - 1 - 1)) hgp hA2mem
  have hsplit := last_cell_split n hn1
  have e1 : (n - 1 - 1) * n + n = (n - 1) * n := by
    have h2 : n - 1 - 1 + 1 = n - 1 := by omega
    calc (n - 1 - 1) * n + n = (n - 1 - 1 + 1) * n := by ring
    _ = (n - 1) * n := by rw [h2]
  have e2 : (n - 1) * n + n = n * n := by
    have h2 : n - 1 + 1 = n := by omega
    calc (n - 1) * n + n = (n - 1 + 1) * n := by ring
    _ = n * n := by rw [h2]
  have hlen : (goal_state n).length = n * n := goal_state_length n hn1
  have hJ1len : (n - 1 - 1) * n + (n - 1) < (goal_state n).length := by
    rw [hlen]; omega
  have hJ1N : (n - 1 - 1) * n + (n - 1) < n * n := by omega
  have hJ1I : (n - 1 - 1) * n + (n - 1) ≠ (n - 1) * n + (n - 1) := by omega
  have hJ1J2 : (n - 1 - 1) * n + (n - 1) ≠ (n - 1) * n + (n - 1 - 1) := by omega
  have hJ1last : (n - 1 - 1) * n + (n - 1) ≠ n * n - 1 := by omega
  have hg_last : (goal_state n).getD ((n - 1) * n + (n - 1)) 0 = 0 := by
    rw [hsplit, goal_state_getD n _ hn1 (by omega), if_pos rfl]
  have hg_J1 : (goal_state n).getD ((n - 1 - 1) * n + (n - 1)) 0 =
      (n - 1 - 1) * n + (n - 1) + 1 := by
    rw [goal_state_getD n _ hn1 hJ1N, if_neg hJ1last]
  have hnb1_J1 : (gnbU n).getD ((n - 1 - 1) * n + (n - 1)) 0 = 0 := by
    show (((goal_state n).set ((n - 1) * n + (n - 1))
        ((goal_state n).getD ((n - 1 - 1) * n + (n - 1)) 0)).set
        ((n - 1 - 1) * n + (n - 1))
        ((goal_state n).getD ((n - 1) * n + (n - 1)) 0)).getD
        ((n - 1 - 1) * n + (n - 1)) 0 = 0
    rw [getD_swap_snd _ _ _ _ _ hJ1len, hg_last]
  have hnb2_J1 : (gnbL n).getD ((n - 1 - 1) * n + (n - 1)) 0 =
      (n - 1 - 1) * n + (n - 1) + 1 := by
    show (((goal_state n).set ((n - 1) * n + (n - 1))
        ((goal_state n).getD ((n - 1) * n + (n - 1 - 1)) 0)).set
        ((n - 1) * n + (n - 1 - 1))
        ((goal_state n).getD ((n - 1) * n + (n - 1)) 0)).getD
        ((n - 1 - 1) * n + (n - 1)) 0 = _
    rw [getD_swap_other _ _ _ _ _ _ hJ1I hJ1J2, hg_J1]
  have hne21 : gnbL n ≠ gnbU n := by
    intro h
    rw [h, hnb1_J1] at hnb2_J1
    omega
  -- the first forward expansion
  have hfresh1 : dictGet (goalPopped n).g (gnbU n) = none := by
    show dictGet [(goal_state n, (0 : Nat))] (gnbU n) = none
    rw [dictGet_cons, if_neg (fun h => hne1 h.symm)]
    rfl
  have htg1 : (dictGet (goalPopped n).g (goal_state n)).getD 0 + 1 = 1 := by
    show (dictGet [(goal_state n, (0 : Nat))] (goal_state n)).getD 0 + 1 = 1
    rw [dictGet_cons, if_pos rfl]
    rfl
  have hstepA1 : relaxStep n (goal_state n) (goalPopped n, 0)
      (Action.mk (n - 1, n - 1) (n - 1 - 1, n - 1)) = (goalRelaxed1 n, 1) := by
    rw [relaxStep_fresh_eq n (goal_state n) (goalPopped n) 0
      (Action.mk (n - 1, n - 1) (n - 1 - 1, n - 1)) 1 hfresh1 htg1]
    rfl
  have hfresh2 : dictGet (goalRelaxed1 n).g (gnbL n) = none := by
    show dictGet ((gnbU n, (1 : Nat)) :: [(goal_state n, 0)]) (gnbL n) = none
    rw [dictGet_cons, if_neg (fun h => hne21 h.symm), dictGet_cons,
      if_neg (fun h => hne2 h.symm)]
    rfl
  have htg2 : (dictGet (goalRelaxed1 n).g (goal_state n)).getD 0 + 1 = 1 := by
    show (dictGet ((gnbU n, (1 : Nat)) :: [(goal_state n, 0)]) (goal_state n)).getD 0 + 1 = 1
    rw [dictGet_cons, if_neg fun h => hne1 h, dictGet_cons, if_pos rfl]
    rfl
  have hstepA2 : relaxStep n (goal_state n) (goalRelaxed1 n, 1)
      (Action.mk (n - 1, n - 1) (n - 1, n - 1 - 1)) = (goalRelaxed2 n, 2) := by
    rw [relaxStep_fresh_eq n (goal_state n) (goalRelaxed1 n) 1
      (Action.mk (n - 1, n - 1) (n - 1, n - 1 - 1)) 1 hfresh2 htg2]
    rfl
  have hrelax : relaxAll n (goal_state n) (goalPopped n) 0 = (goalRelaxed2 n, 2) := by
    unfold relaxAll
    rw [available_actions_goal n hn, List.foldl_cons, hstepA1, List.foldl_cons,
      hstepA2, List.foldl_nil]
  -- first iteration: forward expands the goal, backward pops the goal and
  -- meets it in the forward explored set
  have hstepF : stepDir n (a_star_search n (goal_state n) (goal_state n) true)
      (a_star_search n (goal_state n) (goal_state n) false) 0 =
      (none, goalRelaxed2 n, 2) := by
    have hnm : goal_state n ∈
        (a_star_search n (goal_state n) (goal_state n) false).expl → False :=
      fun h => absurd h (List.not_mem_nil _)
    rw [stepDir_pop n (a_star_search n (goal_state n) (goal_state n) true)
      (a_star_search n (goal_state n) (goal_state n) false) 0
      (manhattan_distance n (goal_state n)) (goal_state n) []
      (heapPop_singleton (manhattan_distance n (goal_state n), goal_state n)),
      if_neg hnm]
    exact congrArg (fun r : Dir × Nat => ((none : Option Key), r.1, r.2)) hrelax
  have hmeet : goal_state n ∈ (goalRelaxed2 n).expl := List.mem_singleton.mpr rfl
  have hstepB : stepDir n (a_star_search n (goal_state n) (goal_state n) false)
      (goalRelaxed2 n) 2 = (some (goal_state n), goalPopped n, 2) := by
    rw [stepDir_pop n (a_star_search n (goal_state n) (goal_state n) false)
      (goalRelaxed2 n) 2 (manhattan_distance n (goal_state n)) (goal_state n) []
      (heapPop_singleton (manhattan_distance n (goal_state n), goal_state n)),
      if_pos hmeet]
    rfl
  have hiter : iterOnce n (initState n (goal_state n)) =
      Sum.inl (some (goal_state n),
        { fwd := goalRelaxed2 n, bwd := goalPopped n, nodes := 2 }) := by
    have hguard : ¬((initState n (goal_state n)).fwd.openq = [] ∨
        (initState n (goal_state n)).bwd.openq = []) := by
      simp [initState, a_star_search]
    have hF : stepDir n (initState n (goal_state n)).fwd
        (initState n (goal_state n)).bwd (initState n (goal_state n)).nodes =
        (none, goalRelaxed2 n, 2) := hstepF
    unfold iterOnce
    rw [if_neg hguard, hF]
    simp only
    have hred : stepDir n ({ initState n (goal_state n) with
        fwd := goalRelaxed2 n, nodes := 2 } : BidirState).bwd
        ({ initState n (goal_state n) with
        fwd := goalRelaxed2 n, nodes := 2 } : BidirState).fwd
        ({ initState n (goal_state n) with
        fwd := goalRelaxed2 n, nodes := 2 } : BidirState).nodes =
        stepDir n (initState n (goal_state n)).bwd (goalRelaxed2 n) 2 := rfl
    have hB : stepDir n (initState n (goal_state n)).bwd (goalRelaxed2 n) 2 =
        (some (goal_state n), goalPopped n, 2) := hstepB
    rw [hred, hB]
  have hloop : loop n (f + 1) (initState n (goal_state n)) =
      some (some (goal_state n),
        { fwd := goalRelaxed2 n, bwd := goalPopped n, nodes := 2 }) := by
    rw [loop, hiter]
  have hcF : cameGet (goalRelaxed2 n).came (goal_state n) = none := by
    show (dictGet ((gnbL n, some (goal_state n)) :: (gnbU n, some (goal_state n)) ::
      [(goal_state n, none)]) (goal_state n)).getD none = none
    rw [dictGet_cons, if_neg fun h => hne2 h, dictGet_cons, if_neg fun h => hne1 h,
      dictGet_cons, if_pos rfl]
    rfl
  have hcB : cameGet (goalPopped n).came (goal_state n) = none := by
    show (dictGet [(goal_state n, (none : Option Key))] (goal_state n)).getD none = none
    rw [dictGet_cons, if_pos rfl]
    rfl
  have hrecon : reconstructPath
      { fwd := goalRelaxed2 n, bwd := goalPopped n, nodes := 2 } (goal_state n) =
      [goal_state n] := by
    show (walkChain (goalRelaxed2 n).came ((goalRelaxed2 n).came.length + 1)
        (some (goal_state n))).reverse ++
      walkChain (goalPopped n).came ((goalPopped n).came.length + 1)
        (cameGet (goalPopped n).came (goal_state n)) = [goal_state n]
    rw [walkChain_succ_some, hcF, walkChain_none, hcB, walkChain_none]
    rfl
  refine ⟨?_, rfl⟩
  unfold bidirectional_a_star
  rw [hloop]
  simp only
  rw [hrecon]

/-- Witness for C8 at the 4x4 board with one unit of fuel. -/
theorem c8_goal_start_zero_quality_witness :
    2 ≤ 4 ∧ 1 ≤ 1 ∧
    (bidirectional_a_star 4 (goal_state 4) 1 = some (some [goal_state 4], 2) ∧
      ([goal_state 4] : List Key).length - 1 = 0) :=
  ⟨by decide, by decide, c8_goal_start_zero_quality 4 1 (by decide) (by decide)⟩

/-! ## Claim C9 -/

/-- Claim C9: the engine is deterministic — two runs on element-wise
identical start states (same length, same entries position by position),
with the fixed move-enumeration order built into `available_actions`,
return identical results, in particular the same `nodes_evaluated` and the
same path element for element. -/
theorem c9_deterministic (n fuel : Nat) (s t : Key)
    (helem : ∀ i, s.get? i = t.get? i) :
    bidirectional_a_star n s fuel = bidirectional_a_star n t fuel := by
  have hst : s = t := List.ext_get?_iff.mpr helem
  rw [hst]

/-- Claim C9 witness: two element-wise identical copies of a 2×2 start state
produce identical search results. -/
theorem c9_deterministic_witness :
    bidirectional_a_star 2 [3, 1, 2, 0] 30 = bidirectional_a_star 2 [3, 1, 2, 0] 30 :=
  c9_deterministic 2 30 [3, 1, 2, 0] [3, 1, 2, 0] (fun _ => rfl)

end NPuzzle
